import Mathlib

/-!
Verification of the Ariane Atlas core: a shallow embedding in Lean 4 of the
in-memory graph store (`src/atlas/storage/graph_store.py`), the ingest layer
(`src/atlas/api/endpoints/ingest.py`), the HMAC signer
(`src/atlas/storage/signing.py`), the state tracker
(`src/theseus/core/state_tracker.py`) and the workflow store
(`src/atlas/api/endpoints/workflows.py`), together with proofs of the
spec-level properties.

Python dictionaries are modelled as association lists with insertion-order
updates; Python sets are modelled as duplicate-free lists with `add` and
`discard` operations.
-/

namespace Ariane

/-- Association-list lookup, modelling Python `dict.get(k)`: the value stored
at the first matching key, if any. -/
def lookupKey {α : Type} : List (String × α) → String → Option α
  | [], _ => none
  | (k', v) :: rest, k => if k' = k then some v else lookupKey rest k

/-- Association-list update, modelling Python `d[k] = v`: replaces the value
in place when the key is present, otherwise appends (insertion order). -/
def aset {α : Type} : List (String × α) → String → α → List (String × α)
  | [], k, v => [(k, v)]
  | (k', w) :: rest, k, v =>
    if k' = k then (k, v) :: rest else (k', w) :: aset rest k v

/-- Python `set.add` over a list-represented set: appends only when absent. -/
def sadd (s : List String) (x : String) : List String :=
  if x ∈ s then s else s ++ [x]

/-- Python `set.discard` over a list-represented set. -/
def sdiscard (s : List String) (x : String) : List String :=
  s.filter (fun y => y ≠ x)

theorem lookupKey_aset_self {α : Type} (d : List (String × α)) (k : String) (v : α) :
    lookupKey (aset d k v) k = some v := by
  induction d with
  | nil => simp [aset, lookupKey]
  | cons hd rest ih =>
    obtain ⟨k', w⟩ := hd
    by_cases h : k' = k
    · simp [aset, h, lookupKey]
    · simp [aset, h, lookupKey, ih]

theorem lookupKey_aset_ne {α : Type} (d : List (String × α)) (k k₂ : String) (v : α)
    (h : k₂ ≠ k) : lookupKey (aset d k v) k₂ = lookupKey d k₂ := by
  have h2 : ¬(k = k₂) := fun hh => h hh.symm
  induction d with
  | nil => simp [aset, lookupKey, h2]
  | cons hd rest ih =>
    obtain ⟨k', w⟩ := hd
    by_cases hk : k' = k
    · subst hk
      simp [aset, lookupKey, h2]
    · simp [aset, hk, lookupKey, ih]

theorem mem_sadd (s : List String) (x y : String) :
    y ∈ sadd s x ↔ y ∈ s ∨ y = x := by
  unfold sadd
  by_cases h : x ∈ s
  · simp only [if_pos h]
    constructor
    · exact fun hy => Or.inl hy
    · rintro (hy | rfl)
      · exact hy
      · exact h
  · simp [if_neg h]

theorem mem_sdiscard (s : List String) (x y : String) :
    y ∈ sdiscard s x ↔ y ∈ s ∧ y ≠ x := by
  simp [sdiscard]

/-- Python `dict.pop(k)` restricted to its removal effect: drops the entry
with the given key. -/
def dpop {α : Type} : List (String × α) → String → List (String × α)
  | [], _ => []
  | (k1, v) :: rest, k =>
    if k1 = k then dpop rest k else (k1, v) :: dpop rest k

theorem lookupKey_dpop {α : Type} (d : List (String × α)) (k k₂ : String) :
    lookupKey (dpop d k) k₂ = if k₂ = k then none else lookupKey d k₂ := by
  induction d with
  | nil => by_cases h : k₂ = k <;> simp [dpop, lookupKey, h]
  | cons hd rest ih =>
    obtain ⟨k1, v⟩ := hd
    by_cases h1 : k1 = k
    · subst h1
      by_cases h2 : k₂ = k1
      · subst h2
        simp [dpop, lookupKey, ih]
      · have h3 : ¬(k1 = k₂) := fun hh => h2 hh.symm
        simp [dpop, lookupKey, h2, h3, ih]
    · by_cases h2 : k₂ = k
      · subst h2
        simp [dpop, h1, lookupKey, ih]
      · simp [dpop, h1, lookupKey, h2, ih]

/-! ## Domain model

Shallow embedding of `common/models/ui_state.py`, `common/models/transition.py`,
`atlas/schema/context.py`, `atlas/schema/state_schema.py` and
`atlas/schema/transition_schema.py`. Python `Dict[str, Any]` metadata maps are
modelled as association lists over a JSON value type; Python `float` fields
are modelled as rationals (no claim depends on floating-point rounding). -/

/-- JSON-like value, modelling the `Any` side of Python metadata dictionaries
and JSON payloads. -/
inductive Json where
  | null : Json
  | bool (b : Bool) : Json
  | num (q : Rat) : Json
  | str (s : String) : Json
  | arr (xs : List Json) : Json
  | obj (kvs : List (String × Json)) : Json

/-- Metadata dictionary (`Dict[str, Any]` in the source). -/
def Meta : Type := List (String × Json)

/-- Platform enum from `common/models/ui_state.py`. -/
inductive Platform where
  | web | windows | linux | android | macos | other
  deriving DecidableEq

/-- ActionType enum from `common/models/transition.py`. -/
inductive ActionType where
  | click | double_click | right_click | key_press | text_input
  | focus | hover | scroll | touch_tap | touch_long_press | gesture | other
  deriving DecidableEq

/-- BoundingBox from `common/models/ui_state.py`. -/
structure BoundingBox where
  x : Int
  y : Int
  width : Int
  height : Int

/-- InteractiveElement from `common/models/ui_state.py`. -/
structure InteractiveElement where
  id : String
  role : String
  label : Option String
  bounding_box : Option BoundingBox
  path : Option String
  enabled : Bool
  visible : Bool
  metadata : Meta

/-- UIState from `common/models/ui_state.py`. -/
structure UIState where
  id : String
  app_id : String
  version : Option String
  platform : Platform
  locale : Option String
  fingerprints : List (String × String)
  screenshot_ref : Option String
  interactive_elements : List InteractiveElement
  metadata : Meta

/-- Context from `atlas/schema/context.py`. -/
structure Context where
  context_id : String
  app_id : String
  version : Option String
  platform : Platform
  locale : Option String
  schema_version : String
  created_at : String
  environment : Meta
  metadata : Meta

/-- Action from `common/models/transition.py`. -/
structure Action where
  type : ActionType
  element_id : Option String
  raw_input : Option String
  metadata : Meta

/-- Transition from `common/models/transition.py`; `confidence` is a Python
float, modelled as a rational. -/
structure Transition where
  id : String
  source_state_id : String
  target_state_id : String
  action : Action
  intent_id : Option String
  confidence : Rat
  metadata : Meta

/-- StateRecord from `atlas/schema/state_schema.py`. -/
structure StateRecord where
  context_id : String
  state : UIState
  discovered_at : String
  is_entry : Bool
  is_terminal : Bool
  tags : List String
  metadata : Meta

/-- Shortcut accessor `StateRecord.id` (property in the source). -/
def StateRecord.id (r : StateRecord) : String := r.state.id

/-- TransitionRecord from `atlas/schema/transition_schema.py`; `times_observed`
is a Python `int`, modelled as `Int`. -/
structure TransitionRecord where
  context_id : String
  transition : Transition
  discovered_at : String
  times_observed : Int
  metadata : Meta

/-- Shortcut accessor `TransitionRecord.id` (property in the source). -/
def TransitionRecord.id (r : TransitionRecord) : String := r.transition.id

/-- Shortcut accessor `TransitionRecord.source_state_id`. -/
def TransitionRecord.source_state_id (r : TransitionRecord) : String :=
  r.transition.source_state_id

/-- Shortcut accessor `TransitionRecord.target_state_id`. -/
def TransitionRecord.target_state_id (r : TransitionRecord) : String :=
  r.transition.target_state_id

/-- Shortcut accessor `TransitionRecord.intent_id`. -/
def TransitionRecord.intent_id (r : TransitionRecord) : Option String :=
  r.transition.intent_id

/-! ## Graph store

Shallow embedding of `atlas/storage/graph_store.py`. The four per-context
maps are nested association lists; `defaultdict` reads appear as lookups with
an empty default, which is observationally equivalent because every read in
the source uses `.get` with the same default. -/

/-- GraphStoreConfig from `atlas/storage/graph_store.py`. -/
structure GraphStoreConfig where
  max_contexts : Option Nat
  max_states_per_context : Option Nat
  max_transitions_per_context : Option Nat

/-- Default configuration (all limits `None`). -/
def GraphStoreConfig.default : GraphStoreConfig :=
  { max_contexts := none, max_states_per_context := none,
    max_transitions_per_context := none }

/-- GraphStore state: contexts, per-context state and transition maps, and the
outgoing/incoming incidence indices (sets of transition ids per state id). -/
structure GraphStore where
  config : GraphStoreConfig
  contexts : List (String × Context)
  states : List (String × List (String × StateRecord))
  transitions : List (String × List (String × TransitionRecord))
  outgoing : List (String × List (String × List String))
  incoming : List (String × List (String × List String))

/-- An empty GraphStore, as built by `GraphStore.__init__`. -/
def mkStore (cfg : GraphStoreConfig) : GraphStore :=
  { config := cfg, contexts := [], states := [], transitions := [],
    outgoing := [], incoming := [] }

/-- Lookup of the transition map of a context (`self._transitions.get(c, {})`). -/
def GraphStore.ctxTransitions (σ : GraphStore) (c : String) :
    List (String × TransitionRecord) :=
  (lookupKey σ.transitions c).getD []

/-- Lookup of the state map of a context (`self._states.get(c, {})`). -/
def GraphStore.ctxStates (σ : GraphStore) (c : String) :
    List (String × StateRecord) :=
  (lookupKey σ.states c).getD []

/-- The outgoing incidence set `outgoing[c][s]` (empty when absent). -/
def GraphStore.getOut (σ : GraphStore) (c s : String) : List String :=
  (lookupKey ((lookupKey σ.outgoing c).getD []) s).getD []

/-- The incoming incidence set `incoming[c][s]` (empty when absent). -/
def GraphStore.getInc (σ : GraphStore) (c s : String) : List String :=
  (lookupKey ((lookupKey σ.incoming c).getD []) s).getD []

/-- Write the outgoing incidence set `outgoing[c][s] = ids`. -/
def GraphStore.setOut (σ : GraphStore) (c s : String) (ids : List String) :
    GraphStore :=
  let inner := (lookupKey σ.outgoing c).getD []
  { σ with outgoing := aset σ.outgoing c (aset inner s ids) }

/-- Write the incoming incidence set `incoming[c][s] = ids`. -/
def GraphStore.setInc (σ : GraphStore) (c s : String) (ids : List String) :
    GraphStore :=
  let inner := (lookupKey σ.incoming c).getD []
  { σ with incoming := aset σ.incoming c (aset inner s ids) }

/-- `GraphStore.get_context`. -/
def GraphStore.getContext (σ : GraphStore) (c : String) : Option Context :=
  lookupKey σ.contexts c

/-- `GraphStore.get_state`. -/
def GraphStore.getState (σ : GraphStore) (c s : String) : Option StateRecord :=
  lookupKey (σ.ctxStates c) s

/-- `GraphStore.get_transition`. -/
def GraphStore.getTransition (σ : GraphStore) (c t : String) :
    Option TransitionRecord :=
  lookupKey (σ.ctxTransitions c) t

/-- Failure of a store write (the `RuntimeError` capacity exceptions). -/
inductive StoreErr where
  | capacity
  deriving DecidableEq

/-- `GraphStore.upsert_context`: capacity check on new ids, then insert or
replace. -/
def GraphStore.upsertContext (σ : GraphStore) (c : Context) :
    Except StoreErr GraphStore :=
  if σ.config.max_contexts.isSome ∧ (lookupKey σ.contexts c.context_id).isNone ∧
      σ.config.max_contexts.getD 0 ≤ σ.contexts.length then
    .error .capacity
  else
    .ok { σ with contexts := aset σ.contexts c.context_id c }

/-- `GraphStore.upsert_state`: capacity check on insertion of new ids, then
insert or replace in the per-context state map. -/
def GraphStore.upsertState (σ : GraphStore) (r : StateRecord) :
    Except StoreErr GraphStore :=
  let ctxSt := σ.ctxStates r.context_id
  if σ.config.max_states_per_context.isSome ∧ (lookupKey ctxSt r.id).isNone ∧
      σ.config.max_states_per_context.getD 0 ≤ ctxSt.length then
    .error .capacity
  else
    .ok { σ with states := aset σ.states r.context_id (aset ctxSt r.id r) }

/-- `GraphStore.upsert_transition`: on an existing id, drop stale incidence
entries for a changed source/target and merge `times_observed`; on a new id,
enforce capacity. Then store the record and add it to both indices. -/
def GraphStore.upsertTransition (σ : GraphStore) (r : TransitionRecord)
    (increment_observed : Bool) : Except StoreErr GraphStore :=
  let c := r.context_id
  let trId := r.id
  let src := r.source_state_id
  let tgt := r.target_state_id
  let ctxTr := σ.ctxTransitions c
  match lookupKey ctxTr trId with
  | some existing =>
    let σ1 := if existing.source_state_id ≠ src then
        σ.setOut c existing.source_state_id
          (sdiscard (σ.getOut c existing.source_state_id) trId)
      else σ
    let σ2 := if existing.target_state_id ≠ tgt then
        σ1.setInc c existing.target_state_id
          (sdiscard (σ1.getInc c existing.target_state_id) trId)
      else σ1
    let stored := if increment_observed then
        { r with times_observed := existing.times_observed + 1 }
      else r
    let σ3 := { σ2 with transitions := aset σ2.transitions c (aset ctxTr trId stored) }
    let σ4 := σ3.setOut c src (sadd (σ3.getOut c src) trId)
    .ok (σ4.setInc c tgt (sadd (σ4.getInc c tgt) trId))
  | none =>
    if σ.config.max_transitions_per_context.isSome ∧
        σ.config.max_transitions_per_context.getD 0 ≤ ctxTr.length then
      .error .capacity
    else
      let σ3 := { σ with transitions := aset σ.transitions c (aset ctxTr trId r) }
      let σ4 := σ3.setOut c src (sadd (σ3.getOut c src) trId)
      .ok (σ4.setInc c tgt (sadd (σ4.getInc c tgt) trId))

/-- One mutating store call, as issued by a caller. -/
inductive StoreOp where
  | ctxOp (c : Context)
  | stateOp (r : StateRecord)
  | transOp (r : TransitionRecord) (inc : Bool)

/-- Apply one operation; a raised capacity error leaves the store unchanged
(the source checks capacity before mutating). -/
def applyOp (σ : GraphStore) : StoreOp → GraphStore
  | .ctxOp c =>
    match σ.upsertContext c with
    | .ok σ2 => σ2
    | .error _ => σ
  | .stateOp r =>
    match σ.upsertState r with
    | .ok σ2 => σ2
    | .error _ => σ
  | .transOp r inc =>
    match σ.upsertTransition r inc with
    | .ok σ2 => σ2
    | .error _ => σ

/-- Apply a sequence of store operations in order. -/
def applyOps (σ : GraphStore) : List StoreOp → GraphStore
  | [] => σ
  | op :: rest => applyOps (applyOp σ op) rest

/-- A store state reachable from an empty store by some operation sequence. -/
def Reaches (σ : GraphStore) : Prop :=
  ∃ cfg ops, σ = applyOps (mkStore cfg) ops

/-! ## Incidence-index consistency (spec invariant I3 / properties P1, P2) -/

/-- Invariant I3: a transition id is in `outgoing[c][s]` exactly when the
stored record in `transitions[c]` has source `s`; symmetrically for
`incoming`. -/
def StoreInv (σ : GraphStore) : Prop :=
  ∀ c s t,
    (t ∈ σ.getOut c s ↔ ∃ tr, σ.getTransition c t = some tr ∧
      tr.source_state_id = s) ∧
    (t ∈ σ.getInc c s ↔ ∃ tr, σ.getTransition c t = some tr ∧
      tr.target_state_id = s)

theorem getOut_setOut (σ : GraphStore) (c s c₂ s₂ : String) (ids : List String) :
    (σ.setOut c s ids).getOut c₂ s₂ =
      if c₂ = c then (if s₂ = s then ids else σ.getOut c s₂)
      else σ.getOut c₂ s₂ := by
  by_cases hc : c₂ = c
  · subst hc
    by_cases hs : s₂ = s
    · subst hs
      simp [GraphStore.setOut, GraphStore.getOut, lookupKey_aset_self]
    · simp [GraphStore.setOut, GraphStore.getOut, lookupKey_aset_self,
        lookupKey_aset_ne _ _ _ _ hs, hs]
  · simp [GraphStore.setOut, GraphStore.getOut, hc,
      lookupKey_aset_ne _ _ _ _ hc]

theorem getInc_setInc (σ : GraphStore) (c s c₂ s₂ : String) (ids : List String) :
    (σ.setInc c s ids).getInc c₂ s₂ =
      if c₂ = c then (if s₂ = s then ids else σ.getInc c s₂)
      else σ.getInc c₂ s₂ := by
  by_cases hc : c₂ = c
  · subst hc
    by_cases hs : s₂ = s
    · subst hs
      simp [GraphStore.setInc, GraphStore.getInc, lookupKey_aset_self]
    · simp [GraphStore.setInc, GraphStore.getInc, lookupKey_aset_self,
        lookupKey_aset_ne _ _ _ _ hs, hs]
  · simp [GraphStore.setInc, GraphStore.getInc, hc,
      lookupKey_aset_ne _ _ _ _ hc]

theorem getInc_setOut (σ : GraphStore) (c s c₂ s₂ : String) (ids : List String) :
    (σ.setOut c s ids).getInc c₂ s₂ = σ.getInc c₂ s₂ := rfl

theorem getOut_setInc (σ : GraphStore) (c s c₂ s₂ : String) (ids : List String) :
    (σ.setInc c s ids).getOut c₂ s₂ = σ.getOut c₂ s₂ := rfl

theorem getTransition_setOut (σ : GraphStore) (c s c₂ t : String)
    (ids : List String) :
    (σ.setOut c s ids).getTransition c₂ t = σ.getTransition c₂ t := rfl

theorem getTransition_setInc (σ : GraphStore) (c s c₂ t : String)
    (ids : List String) :
    (σ.setInc c s ids).getTransition c₂ t = σ.getTransition c₂ t := rfl

theorem getTransition_setTrans (σ : GraphStore) (c c₂ t : String)
    (m : List (String × TransitionRecord)) :
    ({ σ with transitions := aset σ.transitions c m } : GraphStore).getTransition
        c₂ t =
      if c₂ = c then lookupKey m t else σ.getTransition c₂ t := by
  by_cases hc : c₂ = c
  · subst hc
    simp [GraphStore.getTransition, GraphStore.ctxTransitions, lookupKey_aset_self]
  · simp [GraphStore.getTransition, GraphStore.ctxTransitions, hc,
      lookupKey_aset_ne _ _ _ _ hc]

theorem getOut_setTrans (σ : GraphStore) (c c₂ s₂ : String)
    (m : List (String × TransitionRecord)) :
    ({ σ with transitions := aset σ.transitions c m } : GraphStore).getOut c₂ s₂ =
      σ.getOut c₂ s₂ := rfl

theorem getInc_setTrans (σ : GraphStore) (c c₂ s₂ : String)
    (m : List (String × TransitionRecord)) :
    ({ σ with transitions := aset σ.transitions c m } : GraphStore).getInc c₂ s₂ =
      σ.getInc c₂ s₂ := rfl

theorem lookupKey_ctxTransitions (σ : GraphStore) (c t : String) :
    lookupKey (σ.ctxTransitions c) t = σ.getTransition c t := rfl

theorem getOut_ite (P : Prop) [Decidable P] (a b : GraphStore) (c s : String) :
    (if P then a else b).getOut c s =
      if P then a.getOut c s else b.getOut c s := by
  by_cases h : P <;> simp [h]

theorem getInc_ite (P : Prop) [Decidable P] (a b : GraphStore) (c s : String) :
    (if P then a else b).getInc c s =
      if P then a.getInc c s else b.getInc c s := by
  by_cases h : P <;> simp [h]

theorem getTransition_ite (P : Prop) [Decidable P] (a b : GraphStore)
    (c t : String) :
    (if P then a else b).getTransition c t =
      if P then a.getTransition c t else b.getTransition c t := by
  by_cases h : P <;> simp [h]

@[simp] theorem source_state_id_set_obs (r : TransitionRecord) (n : Int) :
    ({ r with times_observed := n } : TransitionRecord).source_state_id =
      r.source_state_id := rfl

@[simp] theorem target_state_id_set_obs (r : TransitionRecord) (n : Int) :
    ({ r with times_observed := n } : TransitionRecord).target_state_id =
      r.target_state_id := rfl

@[simp] theorem id_set_obs (r : TransitionRecord) (n : Int) :
    ({ r with times_observed := n } : TransitionRecord).id = r.id := rfl

theorem storeInv_upsertTransition_ok (σ : GraphStore) (r : TransitionRecord)
    (inc : Bool) (σ' : GraphStore) (h : StoreInv σ)
    (hok : σ.upsertTransition r inc = Except.ok σ') : StoreInv σ' := by
  cases hl : lookupKey (σ.ctxTransitions r.context_id) r.id with
  | none =>
    by_cases hcap : σ.config.max_transitions_per_context.isSome ∧
        σ.config.max_transitions_per_context.getD 0 ≤
          (σ.ctxTransitions r.context_id).length
    · simp only [GraphStore.upsertTransition, hl, if_pos hcap] at hok
      exact absurd hok (by simp)
    · simp only [GraphStore.upsertTransition, hl, if_neg hcap,
        Except.ok.injEq] at hok
      subst hok
      have hlG : σ.getTransition r.context_id r.id = none := hl
      intro c₂ s₂ t
      constructor
      · simp only [getOut_setInc, getOut_setOut, getOut_setTrans,
          getTransition_setInc, getTransition_setOut, getTransition_setTrans]
        by_cases hc : c₂ = r.context_id
        · subst hc
          by_cases ht : t = r.id
          · subst ht
            by_cases hs : s₂ = r.source_state_id
            · subst hs
              simp [mem_sadd, lookupKey_aset_self]
            · have hOld := (h r.context_id s₂ r.id).1
              rw [hlG] at hOld
              simp only [reduceCtorEq, false_and, exists_false, iff_false] at hOld
              have hs2 : r.source_state_id ≠ s₂ := fun hh => hs hh.symm
              simp [hs, lookupKey_aset_self, hOld, hs2]
          · have hOld := (h r.context_id s₂ t).1
            by_cases hs : s₂ = r.source_state_id
            · subst hs
              simpa [lookupKey_aset_ne _ _ _ _ ht, mem_sadd, ht,
                lookupKey_ctxTransitions] using hOld
            · simpa [lookupKey_aset_ne _ _ _ _ ht, hs,
                lookupKey_ctxTransitions] using hOld
        · simp only [if_neg hc]
          exact (h c₂ s₂ t).1
      · simp only [getInc_setInc, getInc_setOut, getInc_setTrans,
          getTransition_setInc, getTransition_setOut, getTransition_setTrans]
        by_cases hc : c₂ = r.context_id
        · subst hc
          by_cases ht : t = r.id
          · subst ht
            by_cases hs : s₂ = r.target_state_id
            · subst hs
              simp [mem_sadd, lookupKey_aset_self]
            · have hOld := (h r.context_id s₂ r.id).2
              rw [hlG] at hOld
              simp only [reduceCtorEq, false_and, exists_false, iff_false] at hOld
              have hs2 : r.target_state_id ≠ s₂ := fun hh => hs hh.symm
              simp [hs, lookupKey_aset_self, hOld, hs2]
          · have hOld := (h r.context_id s₂ t).2
            by_cases hs : s₂ = r.target_state_id
            · subst hs
              simpa [lookupKey_aset_ne _ _ _ _ ht, mem_sadd, ht,
                lookupKey_ctxTransitions] using hOld
            · simpa [lookupKey_aset_ne _ _ _ _ ht, hs,
                lookupKey_ctxTransitions] using hOld
        · simp only [if_neg hc]
          exact (h c₂ s₂ t).2
  | some existing =>
    have hlG : σ.getTransition r.context_id r.id = some existing := hl
    simp only [GraphStore.upsertTransition, hl, Except.ok.injEq] at hok
    subst hok
    intro c₂ s₂ t
    constructor
    · simp only [getOut_setInc, getOut_setOut, getOut_setTrans, getOut_ite,
        getTransition_setInc, getTransition_setOut, getTransition_setTrans,
        getTransition_ite, ite_self]
      by_cases hc : c₂ = r.context_id
      · subst hc
        simp only [if_pos rfl]
        by_cases ht : t = r.id
        · subst ht
          by_cases hs : s₂ = r.source_state_id
          · subst hs
            simp [mem_sadd, lookupKey_aset_self,
              apply_ite TransitionRecord.source_state_id, ite_self]
          · have hs2 : r.source_state_id ≠ s₂ := fun hh => hs hh.symm
            have hOld := (h r.context_id s₂ r.id).1
            rw [hlG] at hOld
            simp only [Option.some.injEq, exists_eq_left'] at hOld
            by_cases hsrc : existing.source_state_id = r.source_state_id
            · have hns : ¬(existing.source_state_id = s₂) := by
                rw [hsrc]; exact hs2
              simp [hs, hsrc, hOld, hns, hs2, mem_sdiscard, lookupKey_aset_self,
                apply_ite TransitionRecord.source_state_id, ite_self]
            · by_cases hso : s₂ = existing.source_state_id
              · have hrs : ¬(r.source_state_id = existing.source_state_id) :=
                  fun hh => hs (hso.trans hh.symm)
                simp [hs, hsrc, hso, hrs, mem_sdiscard, hs2, lookupKey_aset_self,
                  apply_ite TransitionRecord.source_state_id, ite_self]
              · have hns : ¬(existing.source_state_id = s₂) :=
                  fun hh => hso hh.symm
                simp [hs, hsrc, hso, hOld, hns, hs2, lookupKey_aset_self,
                  apply_ite TransitionRecord.source_state_id, ite_self]
        · have hOld := (h r.context_id s₂ t).1
          by_cases hs : s₂ = r.source_state_id
          · subst hs
            by_cases hsrc : existing.source_state_id = r.source_state_id
            · simpa [hsrc, mem_sadd, ht, lookupKey_aset_ne _ _ _ _ ht,
                lookupKey_ctxTransitions] using hOld
            · have hin : ¬(r.source_state_id = existing.source_state_id) :=
                fun hh => hsrc hh.symm
              simpa [hsrc, hin, mem_sadd, ht, lookupKey_aset_ne _ _ _ _ ht,
                lookupKey_ctxTransitions] using hOld
          · by_cases hsrc : existing.source_state_id = r.source_state_id
            · simpa [hs, hsrc, ht, lookupKey_aset_ne _ _ _ _ ht,
                lookupKey_ctxTransitions] using hOld
            · by_cases hso : s₂ = existing.source_state_id
              · simpa [hs, hsrc, hso, mem_sdiscard, ht,
                  lookupKey_aset_ne _ _ _ _ ht, lookupKey_ctxTransitions]
                  using hOld
              · simpa [hs, hsrc, hso, ht, lookupKey_aset_ne _ _ _ _ ht,
                  lookupKey_ctxTransitions] using hOld
      · simpa [hc, ite_self] using (h c₂ s₂ t).1
    · simp only [getInc_setInc, getInc_setOut, getInc_setTrans, getInc_ite,
        getTransition_setInc, getTransition_setOut, getTransition_setTrans,
        getTransition_ite, ite_self]
      by_cases hc : c₂ = r.context_id
      · subst hc
        simp only [if_pos rfl]
        by_cases ht : t = r.id
        · subst ht
          by_cases hs : s₂ = r.target_state_id
          · subst hs
            simp [mem_sadd, lookupKey_aset_self,
              apply_ite TransitionRecord.target_state_id, ite_self]
          · have hs2 : r.target_state_id ≠ s₂ := fun hh => hs hh.symm
            have hOld := (h r.context_id s₂ r.id).2
            rw [hlG] at hOld
            simp only [Option.some.injEq, exists_eq_left'] at hOld
            by_cases htgt : existing.target_state_id = r.target_state_id
            · have hns : ¬(existing.target_state_id = s₂) := by
                rw [htgt]; exact hs2
              simp [hs, htgt, hOld, hns, hs2, mem_sdiscard, lookupKey_aset_self,
                apply_ite TransitionRecord.target_state_id, ite_self]
            · by_cases hso : s₂ = existing.target_state_id
              · have hrs : ¬(r.target_state_id = existing.target_state_id) :=
                  fun hh => hs (hso.trans hh.symm)
                simp [hs, htgt, hso, hrs, mem_sdiscard, hs2, lookupKey_aset_self,
                  apply_ite TransitionRecord.target_state_id, ite_self]
              · have hns : ¬(existing.target_state_id = s₂) :=
                  fun hh => hso hh.symm
                simp [hs, htgt, hso, hOld, hns, hs2, lookupKey_aset_self,
                  apply_ite TransitionRecord.target_state_id, ite_self]
        · have hOld := (h r.context_id s₂ t).2
          by_cases hs : s₂ = r.target_state_id
          · subst hs
            by_cases htgt : existing.target_state_id = r.target_state_id
            · simpa [htgt, mem_sadd, ht, lookupKey_aset_ne _ _ _ _ ht,
                lookupKey_ctxTransitions] using hOld
            · have hin : ¬(r.target_state_id = existing.target_state_id) :=
                fun hh => htgt hh.symm
              simpa [htgt, hin, mem_sadd, ht, lookupKey_aset_ne _ _ _ _ ht,
                lookupKey_ctxTransitions] using hOld
          · by_cases htgt : existing.target_state_id = r.target_state_id
            · simpa [hs, htgt, ht, lookupKey_aset_ne _ _ _ _ ht,
                lookupKey_ctxTransitions] using hOld
            · by_cases hso : s₂ = existing.target_state_id
              · simpa [hs, htgt, hso, mem_sdiscard, ht,
                  lookupKey_aset_ne _ _ _ _ ht, lookupKey_ctxTransitions]
                  using hOld
              · simpa [hs, htgt, hso, ht, lookupKey_aset_ne _ _ _ _ ht,
                  lookupKey_ctxTransitions] using hOld

      · simpa [hc, ite_self] using (h c₂ s₂ t).2

theorem storeInv_fields (σ σ' : GraphStore) (ht : σ'.transitions = σ.transitions)
    (ho : σ'.outgoing = σ.outgoing) (hi : σ'.incoming = σ.incoming)
    (h : StoreInv σ) : StoreInv σ' := by
  intro c s t
  have e1 : σ'.getOut c s = σ.getOut c s := by simp [GraphStore.getOut, ho]
  have e2 : σ'.getInc c s = σ.getInc c s := by simp [GraphStore.getInc, hi]
  have e3 : σ'.getTransition c t = σ.getTransition c t := by
    simp [GraphStore.getTransition, GraphStore.ctxTransitions, ht]
  rw [e1, e2, e3]
  exact h c s t

theorem applyOp_ctx_eq (σ : GraphStore) (c : Context) :
    applyOp σ (.ctxOp c) = σ ∨
      applyOp σ (.ctxOp c) =
        { σ with contexts := aset σ.contexts c.context_id c } := by
  simp only [applyOp, GraphStore.upsertContext]
  by_cases hP : σ.config.max_contexts.isSome = true ∧
      (lookupKey σ.contexts c.context_id).isNone = true ∧
      σ.config.max_contexts.getD 0 ≤ σ.contexts.length
  · rw [if_pos hP]
    exact Or.inl rfl
  · rw [if_neg hP]
    exact Or.inr rfl

theorem applyOp_state_eq (σ : GraphStore) (r : StateRecord) :
    applyOp σ (.stateOp r) = σ ∨
      applyOp σ (.stateOp r) =
        { σ with states := aset σ.states r.context_id (aset (σ.ctxStates r.context_id) r.id r) } := by
  simp only [applyOp, GraphStore.upsertState]
  by_cases hP : σ.config.max_states_per_context.isSome = true ∧
      (lookupKey (σ.ctxStates r.context_id) r.id).isNone = true ∧
      σ.config.max_states_per_context.getD 0 ≤ (σ.ctxStates r.context_id).length
  · rw [if_pos hP]
    exact Or.inl rfl
  · rw [if_neg hP]
    exact Or.inr rfl

theorem storeInv_applyOp (σ : GraphStore) (op : StoreOp) (h : StoreInv σ) :
    StoreInv (applyOp σ op) := by
  cases op with
  | ctxOp c =>
    rcases applyOp_ctx_eq σ c with he | he <;> rw [he]
    · exact h
    · exact storeInv_fields σ _ rfl rfl rfl h
  | stateOp r =>
    rcases applyOp_state_eq σ r with he | he <;> rw [he]
    · exact h
    · exact storeInv_fields σ _ rfl rfl rfl h
  | transOp r inc =>
    cases hok : σ.upsertTransition r inc with
    | ok σ2 =>
      simp only [applyOp, hok]
      exact storeInv_upsertTransition_ok σ r inc σ2 h hok
    | error e =>
      simp only [applyOp, hok]
      exact h

theorem storeInv_mkStore (cfg : GraphStoreConfig) : StoreInv (mkStore cfg) := by
  intro c s t
  constructor <;>
    simp [mkStore, GraphStore.getOut, GraphStore.getInc,
      GraphStore.getTransition, GraphStore.ctxTransitions, lookupKey]

theorem storeInv_applyOps (σ : GraphStore) (ops : List StoreOp)
    (h : StoreInv σ) : StoreInv (applyOps σ ops) := by
  induction ops generalizing σ with
  | nil => exact h
  | cons op rest ih => exact ih (applyOp σ op) (storeInv_applyOp σ op h)

/-- C1: starting from an empty GraphStore, after any sequence of
`upsert_context`, `upsert_state` and `upsert_transition` operations, a
transition id `t` is in `outgoing[c][s]` iff `t` is stored in
`transitions[c]` with `source_state_id = s`, and `t` is in `incoming[c][s]`
iff `t` is stored in `transitions[c]` with `target_state_id = s`. -/
theorem incidence_index_consistency (cfg : GraphStoreConfig)
    (ops : List StoreOp) (c s t : String) :
    (t ∈ (applyOps (mkStore cfg) ops).getOut c s ↔
      ∃ tr, (applyOps (mkStore cfg) ops).getTransition c t = some tr ∧
        tr.source_state_id = s) ∧
    (t ∈ (applyOps (mkStore cfg) ops).getInc c s ↔
      ∃ tr, (applyOps (mkStore cfg) ops).getTransition c t = some tr ∧
        tr.target_state_id = s) :=
  storeInv_applyOps (mkStore cfg) ops (storeInv_mkStore cfg) c s t

/-! ## Sample records for concrete evaluations -/

/-- Sample UIState with the given id. -/
def mkUIState (sid : String) : UIState :=
  { id := sid, app_id := "app", version := none, platform := .other,
    locale := none, fingerprints := [], screenshot_ref := none,
    interactive_elements := [], metadata := [] }

/-- Sample StateRecord in a context. -/
def mkState (cid sid : String) : StateRecord :=
  { context_id := cid, state := mkUIState sid,
    discovered_at := "2024-01-01T00:00:00Z", is_entry := false,
    is_terminal := false, tags := [], metadata := [] }

/-- Sample Transition with given id and endpoints. -/
def mkTransition (tid src tgt : String) : Transition :=
  { id := tid, source_state_id := src, target_state_id := tgt,
    action := { type := .click, element_id := none, raw_input := none,
                metadata := [] },
    intent_id := none, confidence := 1, metadata := [] }

/-- Sample TransitionRecord with a chosen observation count. -/
def mkTransRecord (cid tid src tgt : String) (n : Int) : TransitionRecord :=
  { context_id := cid, transition := mkTransition tid src tgt,
    discovered_at := "2024-01-01T00:00:00Z", times_observed := n,
    metadata := [] }

/-- Sample Context. -/
def mkContext (cid : String) : Context :=
  { context_id := cid, app_id := "app", version := none, platform := .other,
    locale := none, schema_version := "1.0.0",
    created_at := "2024-01-01T00:00:00Z", environment := [], metadata := [] }

/-! ## Frame condition of upsert_state (claim C10) -/

/-- C10: a successful `upsert_state` leaves the transitions map and both
incidence indices untouched, and changes no per-context state map other than
the record's own context. -/
theorem state_upsert_frame (σ σ2 : GraphStore) (r : StateRecord)
    (hok : σ.upsertState r = Except.ok σ2) :
    σ2.transitions = σ.transitions ∧ σ2.outgoing = σ.outgoing ∧
    σ2.incoming = σ.incoming ∧
    ∀ c, c ≠ r.context_id → σ2.ctxStates c = σ.ctxStates c := by
  simp only [GraphStore.upsertState] at hok
  by_cases hP : σ.config.max_states_per_context.isSome = true ∧
      (lookupKey (σ.ctxStates r.context_id) r.id).isNone = true ∧
      σ.config.max_states_per_context.getD 0 ≤ (σ.ctxStates r.context_id).length
  · rw [if_pos hP] at hok
    exact absurd hok (by simp)
  · rw [if_neg hP] at hok
    simp only [Except.ok.injEq] at hok
    subst hok
    refine ⟨rfl, rfl, rfl, fun c hc => ?_⟩
    simp [GraphStore.ctxStates, lookupKey_aset_ne _ _ _ _ hc]

/-- Store used by the concrete frame-condition evaluation. -/
def frameStore0 : GraphStore := mkStore GraphStoreConfig.default

/-- Result of upserting state `s1` into the empty store. -/
def frameStore1 : GraphStore :=
  { frameStore0 with states := [("c1", [("s1", mkState "c1" "s1")])] }

theorem state_upsert_frame_witness :
    frameStore1.transitions = frameStore0.transitions ∧
    frameStore1.outgoing = frameStore0.outgoing ∧
    frameStore1.incoming = frameStore0.incoming ∧
    frameStore1.ctxStates "c2" = frameStore0.ctxStates "c2" := by
  obtain ⟨h1, h2, h3, h4⟩ :=
    state_upsert_frame frameStore0 frameStore1 (mkState "c1" "s1") (by rfl)
  exact ⟨h1, h2, h3, h4 "c2" (by decide)⟩

/-! ## Ingest layer (claims C3, C4)

Shallow embedding of `IngestHandler.ingest_transition_record` from
`atlas/api/endpoints/ingest.py`. Payload decoding (`TransitionRecord.from_dict`)
is abstracted: the argument is the decode outcome (`none` models a payload
that fails to decode). Every `raise` in the source happens before the single
store mutation (`upsert_transition`), so error branches return the input
store unchanged. -/

/-- IngestError cases raised by `ingest_transition_record` (plus the
propagated store capacity failure, a `RuntimeError` in the source). -/
inductive IngestErr where
  | invalidPayload
  | missingContext (cid : String)
  | sourceStateNotFound (sid cid : String)
  | targetStateNotFound (sid cid : String)
  | storeFailure
  deriving DecidableEq

/-- `IngestHandler.ingest_transition_record`: decode, check the context and
both endpoint states, then `upsert_transition(record, increment_observed=True)`.
Returns the response (or error) together with the post-call store. -/
def ingestTransitionRecord (σ : GraphStore) (decoded : Option TransitionRecord) :
    Except IngestErr (String × String) × GraphStore :=
  match decoded with
  | none => (.error .invalidPayload, σ)
  | some record =>
    if (σ.getContext record.context_id).isNone then
      (.error (.missingContext record.context_id), σ)
    else if (σ.getState record.context_id record.source_state_id).isNone then
      (.error (.sourceStateNotFound record.source_state_id record.context_id), σ)
    else if (σ.getState record.context_id record.target_state_id).isNone then
      (.error (.targetStateNotFound record.target_state_id record.context_id), σ)
    else
      match σ.upsertTransition record true with
      | .ok σ2 => (.ok (record.context_id, record.id), σ2)
      | .error _ => (.error .storeFailure, σ)

/-- C3: ingesting a transition whose context is missing, or whose source or
target state is absent from that context, raises IngestError and leaves the
store exactly as it was. -/
theorem failed_transition_ingest_preserves_store (σ : GraphStore)
    (record : TransitionRecord)
    (hfail : σ.getContext record.context_id = none ∨
      σ.getState record.context_id record.source_state_id = none ∨
      σ.getState record.context_id record.target_state_id = none) :
    (∃ e, (ingestTransitionRecord σ (some record)).1 = Except.error e) ∧
    (ingestTransitionRecord σ (some record)).2 = σ := by
  by_cases h1 : (σ.getContext record.context_id).isNone = true
  · constructor
    · exact ⟨.missingContext record.context_id,
        by simp [ingestTransitionRecord, h1]⟩
    · simp [ingestTransitionRecord, h1]
  · by_cases h2 : (σ.getState record.context_id record.source_state_id).isNone = true
    · constructor
      · exact ⟨.sourceStateNotFound record.source_state_id record.context_id,
          by simp [ingestTransitionRecord, h1, h2]⟩
      · simp [ingestTransitionRecord, h1, h2]
    · by_cases h3 : (σ.getState record.context_id record.target_state_id).isNone = true
      · constructor
        · exact ⟨.targetStateNotFound record.target_state_id record.context_id,
            by simp [ingestTransitionRecord, h1, h2, h3]⟩
        · simp [ingestTransitionRecord, h1, h2, h3]
      · exfalso
        rcases hfail with hf | hf | hf
        · exact h1 (by simp [hf])
        · exact h2 (by simp [hf])
        · exact h3 (by simp [hf])

/-- Store holding only context `ctx1`, as in spec Scenario A. -/
def scenarioAStore : GraphStore :=
  applyOps (mkStore GraphStoreConfig.default) [.ctxOp (mkContext "ctx1")]

theorem failed_transition_ingest_witness :
    (∃ e, (ingestTransitionRecord scenarioAStore
      (some (mkTransRecord "ctx1" "t" "s1" "s2" 1))).1 = Except.error e) ∧
    (ingestTransitionRecord scenarioAStore
      (some (mkTransRecord "ctx1" "t" "s1" "s2" 1))).2 = scenarioAStore :=
  failed_transition_ingest_preserves_store scenarioAStore
    (mkTransRecord "ctx1" "t" "s1" "s2" 1) (Or.inr (Or.inl (by rfl)))

/-! ## Observation-count merge (claims C4, C5) -/

/-- Characterization of the stored record after a successful
`upsert_transition`: the record's own slot holds the merged record, all other
slots are untouched. -/
theorem getTransition_upsertTransition_ok (σ : GraphStore)
    (r : TransitionRecord) (inc : Bool) (σ2 : GraphStore)
    (hok : σ.upsertTransition r inc = Except.ok σ2) (c₂ t : String) :
    σ2.getTransition c₂ t =
      if c₂ = r.context_id ∧ t = r.id then
        some (match lookupKey (σ.ctxTransitions r.context_id) r.id with
          | some existing =>
            if inc then { r with times_observed := existing.times_observed + 1 }
            else r
          | none => r)
      else σ.getTransition c₂ t := by
  cases hl : lookupKey (σ.ctxTransitions r.context_id) r.id with
  | none =>
    by_cases hcap : σ.config.max_transitions_per_context.isSome = true ∧
        σ.config.max_transitions_per_context.getD 0 ≤
          (σ.ctxTransitions r.context_id).length
    · simp only [GraphStore.upsertTransition, hl, if_pos hcap] at hok
      exact absurd hok (by simp)
    · simp only [GraphStore.upsertTransition, hl, if_neg hcap,
        Except.ok.injEq] at hok
      subst hok
      simp only [getTransition_setInc, getTransition_setOut,
        getTransition_setTrans, hl]
      by_cases hc : c₂ = r.context_id
      · subst hc
        by_cases ht : t = r.id
        · subst ht
          simp [lookupKey_aset_self]
        · simp [ht, lookupKey_aset_ne _ _ _ _ ht, lookupKey_ctxTransitions]
      · simp [hc]
  | some existing =>
    simp only [GraphStore.upsertTransition, hl, Except.ok.injEq] at hok
    subst hok
    simp only [getTransition_setInc, getTransition_setOut,
      getTransition_setTrans, getTransition_ite, ite_self, hl]
    by_cases hc : c₂ = r.context_id
    · subst hc
      by_cases ht : t = r.id
      · subst ht
        simp [lookupKey_aset_self]
      · simp [ht, lookupKey_aset_ne _ _ _ _ ht, lookupKey_ctxTransitions]
    · simp [hc]

/-- Well-formedness of an operation: any transition record handed to the
store respects the data-model bound `times_observed >= 1`. -/
def opWellFormed : StoreOp → Bool
  | .transOp r _ => decide (1 ≤ r.times_observed)
  | _ => true

/-- Invariant I4: every stored transition record has `times_observed >= 1`. -/
def TimesObsInv (σ : GraphStore) : Prop :=
  ∀ c t tr, σ.getTransition c t = some tr → 1 ≤ tr.times_observed

theorem timesObsInv_mkStore (cfg : GraphStoreConfig) :
    TimesObsInv (mkStore cfg) := by
  intro c t tr h
  simp [mkStore, GraphStore.getTransition, GraphStore.ctxTransitions,
    lookupKey] at h

theorem timesObsInv_applyOp (σ : GraphStore) (op : StoreOp)
    (hσ : TimesObsInv σ) (hop : opWellFormed op = true) :
    TimesObsInv (applyOp σ op) := by
  cases op with
  | ctxOp c =>
    rcases applyOp_ctx_eq σ c with he | he <;> rw [he]
    · exact hσ
    · intro c₂ t tr h
      exact hσ c₂ t tr h
  | stateOp r =>
    rcases applyOp_state_eq σ r with he | he <;> rw [he]
    · exact hσ
    · intro c₂ t tr h
      exact hσ c₂ t tr h
  | transOp r inc =>
    have hr : 1 ≤ r.times_observed := by
      simpa [opWellFormed] using hop
    cases hok : σ.upsertTransition r inc with
    | ok σ2 =>
      simp only [applyOp, hok]
      intro c₂ t tr h
      rw [getTransition_upsertTransition_ok σ r inc σ2 hok c₂ t] at h
      by_cases hct : c₂ = r.context_id ∧ t = r.id
      · rw [if_pos hct] at h
        cases hl : lookupKey (σ.ctxTransitions r.context_id) r.id with
        | none =>
          rw [hl] at h
          simp only [Option.some.injEq] at h
          subst h
          exact hr
        | some existing =>
          have hex : 1 ≤ existing.times_observed := hσ r.context_id r.id existing hl
          rw [hl] at h
          cases inc with
          | true =>
            simp only [Option.some.injEq, if_true] at h
            subst h
            simp only []
            omega
          | false =>
            simp only [Option.some.injEq, if_false] at h
            subst h
            exact hr
      · rw [if_neg hct] at h
        exact hσ c₂ t tr h
    | error e =>
      simp only [applyOp, hok]
      exact hσ

theorem timesObsInv_applyOps (σ : GraphStore) (ops : List StoreOp)
    (hσ : TimesObsInv σ) (hops : ∀ op ∈ ops, opWellFormed op = true) :
    TimesObsInv (applyOps σ ops) := by
  induction ops generalizing σ with
  | nil => exact hσ
  | cons op rest ih =>
    exact ih (applyOp σ op)
      (timesObsInv_applyOp σ op hσ (hops op (by simp)))
      (fun op2 h2 => hops op2 (by simp [h2]))

/-- C5: after any sequence of store operations on well-formed input records
(records satisfying the data-model bound `times_observed >= 1`), every stored
transition record has `times_observed >= 1`. -/
theorem times_observed_lower_bound (cfg : GraphStoreConfig)
    (ops : List StoreOp) (hops : ∀ op ∈ ops, opWellFormed op = true)
    (c t : String) (tr : TransitionRecord)
    (h : (applyOps (mkStore cfg) ops).getTransition c t = some tr) :
    1 ≤ tr.times_observed :=
  timesObsInv_applyOps (mkStore cfg) ops (timesObsInv_mkStore cfg) hops c t tr h

theorem times_observed_lower_bound_witness :
    1 ≤ (mkTransRecord "c1" "t1" "A" "B" 1).times_observed :=
  times_observed_lower_bound GraphStoreConfig.default
    [.ctxOp (mkContext "c1"), .stateOp (mkState "c1" "A"),
     .stateOp (mkState "c1" "B"),
     .transOp (mkTransRecord "c1" "t1" "A" "B" 1) true]
    (by decide) "c1" "t1" (mkTransRecord "c1" "t1" "A" "B" 1) (by rfl)

/-- Repeated ingest of the same payload (`/ingest/transition` hit n times). -/
def ingestNTimes (p : Option TransitionRecord) : Nat → GraphStore → GraphStore
  | 0, σ => σ
  | n + 1, σ => ingestNTimes p n (ingestTransitionRecord σ p).2

/-- Store holding context `ctx1` and states `s1`, `s2` (spec Scenario B). -/
def scenarioBStore : GraphStore :=
  applyOps (mkStore GraphStoreConfig.default)
    [.ctxOp (mkContext "ctx1"), .stateOp (mkState "ctx1" "s1"),
     .stateOp (mkState "ctx1" "s2")]

/-- C4: after a successful `upsert_transition(t, increment_observed)`, the
stored record equals `t` except `times_observed`: with incrementing and a
previously stored record `prior` (well formed, so `times_observed >= 1`) it is
`max(prior + 1, 1)`; without incrementing it is the caller-supplied value; and
four ingests of the same transition payload yield `times_observed = 4`. -/
theorem transition_upsert_observation_merge (σ σ2 : GraphStore)
    (r : TransitionRecord) (inc : Bool)
    (hok : σ.upsertTransition r inc = Except.ok σ2) :
    (∀ prior, inc = true →
      σ.getTransition r.context_id r.id = some prior →
      1 ≤ prior.times_observed →
      σ2.getTransition r.context_id r.id =
        some { r with times_observed := max (prior.times_observed + 1) 1 }) ∧
    (inc = false → σ2.getTransition r.context_id r.id = some r) ∧
    (ingestNTimes (some (mkTransRecord "ctx1" "t" "s1" "s2" 1)) 4
        scenarioBStore).getTransition "ctx1" "t" =
      some (mkTransRecord "ctx1" "t" "s1" "s2" 4) := by
  refine ⟨?_, ?_, by rfl⟩
  · intro prior hinc hprior hge
    subst hinc
    rw [getTransition_upsertTransition_ok σ r true σ2 hok, if_pos ⟨rfl, rfl⟩]
    rw [show lookupKey (σ.ctxTransitions r.context_id) r.id = some prior
        from hprior]
    have hmax : max (prior.times_observed + 1) 1 = prior.times_observed + 1 := by
      omega
    simp [hmax]
  · intro hinc
    subst hinc
    rw [getTransition_upsertTransition_ok σ r false σ2 hok, if_pos ⟨rfl, rfl⟩]
    cases hl : lookupKey (σ.ctxTransitions r.context_id) r.id <;> simp

/-- Store with transition `t` already observed 3 times. -/
def mergeStore0 : GraphStore :=
  applyOps (mkStore GraphStoreConfig.default)
    [.ctxOp (mkContext "ctx1"), .stateOp (mkState "ctx1" "s1"),
     .stateOp (mkState "ctx1" "s2"),
     .transOp (mkTransRecord "ctx1" "t" "s1" "s2" 3) false]

/-- Result of re-upserting `t` with `increment_observed = true`. -/
def mergeStore1 : GraphStore :=
  applyOp mergeStore0 (.transOp (mkTransRecord "ctx1" "t" "s1" "s2" 1) true)

theorem transition_upsert_observation_merge_witness :
    mergeStore1.getTransition "ctx1" "t" =
      some { mkTransRecord "ctx1" "t" "s1" "s2" 1 with
             times_observed := max (3 + 1) 1 } :=
  (transition_upsert_observation_merge mergeStore0 mergeStore1
    (mkTransRecord "ctx1" "t" "s1" "s2" 1) true (by rfl)).1
    (mkTransRecord "ctx1" "t" "s1" "s2" 3) rfl (by rfl) (by decide)

/-! ## Workflow store (claim C9)

Shallow embedding of `Workflow`, `WorkflowStore` from
`atlas/api/endpoints/workflows.py`. `list_workflows` resolves ids through
`self._workflows[w_id]`; ids in the by-context index always denote stored
workflows (upsert adds to both maps, delete removes from both), so the
resolution is modelled with `filterMap`. -/

/-- Workflow from `atlas/api/endpoints/workflows.py`. -/
structure Workflow where
  workflow_id : String
  context_id : String
  label : String
  description : String
  transition_ids : List String
  intent_id : Option String
  tags : List String
  metadata : Meta

/-- WorkflowStore: the workflow map and the by-context index. -/
structure WorkflowStore where
  workflows : List (String × Workflow)
  by_context : List (String × List String)

/-- An empty WorkflowStore. -/
def WorkflowStore.empty : WorkflowStore := { workflows := [], by_context := [] }

/-- `WorkflowStore.upsert_workflow`: store the workflow and add its id to the
by-context set of its (current) context. -/
def WorkflowStore.upsertWorkflow (W : WorkflowStore) (w : Workflow) :
    WorkflowStore :=
  { workflows := aset W.workflows w.workflow_id w,
    by_context := aset W.by_context w.context_id
      (sadd ((lookupKey W.by_context w.context_id).getD []) w.workflow_id) }

/-- `WorkflowStore.delete_workflow`: pop the workflow; discard its id from its
context's set, dropping the set when it becomes empty. -/
def WorkflowStore.deleteWorkflow (W : WorkflowStore) (wid : String) :
    Bool × WorkflowStore :=
  match lookupKey W.workflows wid with
  | none => (false, W)
  | some wf =>
    let workflows2 := dpop W.workflows wid
    match lookupKey W.by_context wf.context_id with
    | none => (true, { workflows := workflows2, by_context := W.by_context })
    | some ctxSet =>
      let ctxSet2 := sdiscard ctxSet wid
      if ctxSet2.isEmpty then
        (true, { workflows := workflows2,
                 by_context := dpop W.by_context wf.context_id })
      else
        (true, { workflows := workflows2,
                 by_context := aset W.by_context wf.context_id ctxSet2 })

/-- `WorkflowStore.list_workflows` with its three optional filters. -/
def WorkflowStore.listWorkflows (W : WorkflowStore)
    (context_id intent_id tag : Option String) : List Workflow :=
  let base := match context_id with
    | some c => ((lookupKey W.by_context c).getD []).filterMap
        (fun wid => lookupKey W.workflows wid)
    | none => W.workflows.map (fun kv => kv.2)
  let base2 := match intent_id with
    | some iid => base.filter (fun wf => wf.intent_id = some iid)
    | none => base
  match tag with
  | some t =>
    let tn := t.trim.toLower
    base2.filter (fun wf => wf.tags.any (fun tt => tt.trim.toLower = tn))
  | none => base2

/-- One workflow-store call. -/
inductive WfOp where
  | upsert (w : Workflow)
  | delete (wid : String)

/-- Apply one workflow-store call. -/
def applyWfOp (W : WorkflowStore) : WfOp → WorkflowStore
  | .upsert w => W.upsertWorkflow w
  | .delete wid => (W.deleteWorkflow wid).2

/-- Apply a sequence of workflow-store calls in order. -/
def applyWfOps (W : WorkflowStore) : List WfOp → WorkflowStore
  | [] => W
  | op :: rest => applyWfOps (applyWfOp W op) rest

/-- Sample workflow. -/
def mkWorkflow (wid cid : String) : Workflow :=
  { workflow_id := wid, context_id := cid, label := "", description := "",
    transition_ids := [], intent_id := none, tags := [], metadata := [] }

/-- Store after re-upserting workflow `w` under a different context. -/
def wfCexStore : WorkflowStore :=
  applyWfOps WorkflowStore.empty
    [.upsert (mkWorkflow "w" "c1"), .upsert (mkWorkflow "w" "c2")]

theorem workflow_context_index_counterexample :
    ¬ (∀ wf ∈ wfCexStore.listWorkflows (some "c1") none none,
        wf.context_id = "c1") := by
  intro hall
  have hmem : mkWorkflow "w" "c2" ∈
      wfCexStore.listWorkflows (some "c1") none none := by
    rw [show wfCexStore.listWorkflows (some "c1") none none =
      [mkWorkflow "w" "c2"] from rfl]
    exact List.mem_singleton.mpr rfl
  exact absurd (hall _ hmem) (by decide)

/-- Index invariant of the workflow store: the by-context sets list exactly
the ids of stored workflows whose current `context_id` is that context. -/
def WfInv (W : WorkflowStore) : Prop :=
  ∀ c wid, wid ∈ (lookupKey W.by_context c).getD [] ↔
    ∃ w, lookupKey W.workflows wid = some w ∧ w.context_id = c

theorem wfInv_empty : WfInv WorkflowStore.empty := by
  intro c wid
  simp [WorkflowStore.empty, lookupKey]

theorem wfInv_upsert (W : WorkflowStore) (w : Workflow) (h : WfInv W)
    (hsafe : ∀ old, lookupKey W.workflows w.workflow_id = some old →
      old.context_id = w.context_id) :
    WfInv (W.upsertWorkflow w) := by
  intro c wid
  unfold WorkflowStore.upsertWorkflow
  by_cases hc : c = w.context_id
  · subst hc
    by_cases hw : wid = w.workflow_id
    · subst hw
      simp [lookupKey_aset_self, mem_sadd]
    · simp only [lookupKey_aset_self, Option.getD_some, mem_sadd, hw,
        or_false, lookupKey_aset_ne _ _ _ _ hw]
      exact h w.context_id wid
  · rw [lookupKey_aset_ne _ _ _ _ hc]
    by_cases hw : wid = w.workflow_id
    · subst hw
      constructor
      · intro hmem
        exfalso
        obtain ⟨old, hold, hctx⟩ := (h c w.workflow_id).1 hmem
        exact hc (hctx.symm.trans (hsafe old hold))
      · rintro ⟨w2, hw2, hctx⟩
        rw [lookupKey_aset_self] at hw2
        injection hw2 with he
        subst he
        exact absurd hctx.symm hc
    · rw [lookupKey_aset_ne _ _ _ _ hw]
      exact h c wid

theorem wfInv_delete (W : WorkflowStore) (wid0 : String) (h : WfInv W) :
    WfInv (W.deleteWorkflow wid0).2 := by
  unfold WorkflowStore.deleteWorkflow
  cases hlw : lookupKey W.workflows wid0 with
  | none =>
    simp only [hlw]
    exact h
  | some wf =>
    cases hlc : lookupKey W.by_context wf.context_id with
    | none =>
      simp only [hlw, hlc]
      intro c wid
      rw [lookupKey_dpop]
      by_cases hw : wid = wid0
      · subst hw
        rw [if_pos rfl]
        constructor
        · intro hmem
          exfalso
          obtain ⟨w2, hw2, hctx⟩ := (h c wid).1 hmem
          rw [hlw] at hw2
          injection hw2 with he
          subst he
          rw [← hctx, hlc] at hmem
          simp at hmem
        · rintro ⟨w2, hw2, _⟩
          exact absurd hw2 (by simp)
      · rw [if_neg hw]
        exact h c wid
    | some ctxSet =>
      by_cases hempty : (sdiscard ctxSet wid0).isEmpty = true
      · simp only [hlw, hlc, if_pos hempty]
        intro c wid
        rw [lookupKey_dpop, lookupKey_dpop]
        have hnil : sdiscard ctxSet wid0 = [] := by
          simpa [List.isEmpty_iff] using hempty
        have hall : ∀ y ∈ ctxSet, y = wid0 := by
          intro y hy
          by_contra hne
          have hy2 : y ∈ sdiscard ctxSet wid0 := (mem_sdiscard _ _ _).2 ⟨hy, hne⟩
          rw [hnil] at hy2
          simp at hy2
        by_cases hcw : c = wf.context_id
        · subst hcw
          rw [if_pos rfl]
          simp only [Option.getD_none, List.not_mem_nil, false_iff]
          rintro ⟨w2, hw2, hctx⟩
          by_cases hw : wid = wid0
          · rw [if_pos hw] at hw2
            exact absurd hw2 (by simp)
          · rw [if_neg hw] at hw2
            have hmem := (h wf.context_id wid).2 ⟨w2, hw2, hctx⟩
            rw [hlc] at hmem
            exact hw (hall wid hmem)
        · rw [if_neg hcw]
          by_cases hw : wid = wid0
          · subst hw
            rw [if_pos rfl]
            constructor
            · intro hmem
              exfalso
              obtain ⟨w2, hw2, hctx⟩ := (h c wid).1 hmem
              rw [hlw] at hw2
              injection hw2 with he
              subst he
              exact hcw hctx.symm
            · rintro ⟨w2, hw2, _⟩
              exact absurd hw2 (by simp)
          · rw [if_neg hw]
            exact h c wid
      · simp only [hlw, hlc, if_neg hempty]
        intro c wid
        rw [lookupKey_dpop]
        by_cases hcw : c = wf.context_id
        · subst hcw
          rw [lookupKey_aset_self]
          by_cases hw : wid = wid0
          · subst hw
            rw [if_pos rfl]
            simp [mem_sdiscard]
          · rw [if_neg hw]
            simp only [Option.getD_some, mem_sdiscard, hw, ne_eq,
              not_false_eq_true, and_true]
            have h2 := h wf.context_id wid
            rw [hlc] at h2
            exact h2
        · rw [lookupKey_aset_ne _ _ _ _ hcw]
          by_cases hw : wid = wid0
          · subst hw
            rw [if_pos rfl]
            constructor
            · intro hmem
              exfalso
              obtain ⟨w2, hw2, hctx⟩ := (h c wid).1 hmem
              rw [hlw] at hw2
              injection hw2 with he
              subst he
              exact hcw hctx.symm
            · rintro ⟨w2, hw2, _⟩
              exact absurd hw2 (by simp)
          · rw [if_neg hw]
            exact h c wid

/-- Safety of one call: an upsert may not change an existing workflow's
context. -/
def wfOpSafe (W : WorkflowStore) : WfOp → Bool
  | .upsert w =>
    match lookupKey W.workflows w.workflow_id with
    | some old => decide (old.context_id = w.context_id)
    | none => true
  | .delete _ => true

/-- Safety of a call sequence, each call judged against the store it runs on. -/
def SafeSeq : WorkflowStore → List WfOp → Prop
  | _, [] => True
  | W, op :: rest => wfOpSafe W op = true ∧ SafeSeq (applyWfOp W op) rest

theorem wfInv_applyWfOps (W : WorkflowStore) (ops : List WfOp) (h : WfInv W)
    (hs : SafeSeq W ops) : WfInv (applyWfOps W ops) := by
  induction ops generalizing W with
  | nil => exact h
  | cons op rest ih =>
    obtain ⟨h1, h2⟩ := hs
    refine ih (applyWfOp W op) ?_ h2
    cases op with
    | upsert w =>
      refine wfInv_upsert W w h ?_
      intro old hold
      simp only [wfOpSafe, hold] at h1
      exact of_decide_eq_true h1
    | delete wid => exact wfInv_delete W wid h

theorem listWorkflows_context_of_inv (W : WorkflowStore) (hInv : WfInv W)
    (c : String) (wf : Workflow)
    (hmem : wf ∈ W.listWorkflows (some c) none none) : wf.context_id = c := by
  unfold WorkflowStore.listWorkflows at hmem
  obtain ⟨wid, hwid, hlook⟩ := List.mem_filterMap.mp hmem
  obtain ⟨w2, hw2, hctx⟩ := (hInv c wid).1 hwid
  rw [hw2] at hlook
  injection hlook with he
  subst he
  exact hctx

/-- C9 (amended): after any sequence of upserts and deletes in which no
upsert changes an existing workflow's context_id, every workflow returned by
`list_workflows(context_id=c)` has `context_id = c`, and the by-context index
maps `c` to exactly the ids of workflows whose current context is `c`. -/
theorem workflow_context_index_consistency (ops : List WfOp)
    (hsafe : SafeSeq WorkflowStore.empty ops) (c : String) :
    (∀ wf ∈ (applyWfOps WorkflowStore.empty ops).listWorkflows
        (some c) none none, wf.context_id = c) ∧
    (∀ wid,
      wid ∈ (lookupKey (applyWfOps WorkflowStore.empty ops).by_context c).getD []
        ↔ ∃ w, lookupKey (applyWfOps WorkflowStore.empty ops).workflows wid =
            some w ∧ w.context_id = c) := by
  have hInv := wfInv_applyWfOps WorkflowStore.empty ops wfInv_empty hsafe
  exact ⟨fun wf hmem => listWorkflows_context_of_inv _ hInv c wf hmem,
    fun wid => hInv c wid⟩

/-- Safe call sequence used by the concrete evaluation. -/
def wfSafeOps : List WfOp :=
  [.upsert (mkWorkflow "w1" "c1"), .upsert (mkWorkflow "w1" "c1"),
   .delete "w1", .upsert (mkWorkflow "w3" "c2")]

theorem workflow_context_index_consistency_witness :
    (mkWorkflow "w3" "c2").context_id = "c2" :=
  (workflow_context_index_consistency wfSafeOps
    ⟨rfl, rfl, rfl, rfl, trivial⟩ "c2").1 (mkWorkflow "w3" "c2") (by
      rw [show (applyWfOps WorkflowStore.empty wfSafeOps).listWorkflows
        (some "c2") none none = [mkWorkflow "w3" "c2"] from rfl]
      exact List.mem_singleton.mpr rfl)

/-! ## HMAC signer (claim C7)

Shallow embedding of `Signer` from `atlas/storage/signing.py`. The external
stdlib primitives (`json.dumps` canonical serialization, `hmac` digest for the
configured key and algorithm, `base64.urlsafe_b64encode`) are fields of the
signer, abstract functions over byte strings; the `rstrip("=")` step and all
control flow of `sign` / `verify` / `sign_record` / `verify_record` are
modelled concretely. A real HMAC digest is nonempty and its base64 encoding
keeps at least two non-padding characters, which enters the statements as the
hypothesis that stripped encodings are nonempty. -/

/-- Python `str.rstrip("=")`. -/
def stripPadding (s : String) : String :=
  ⟨(s.data.reverse.dropWhile (fun ch => ch = '=')).reverse⟩

/-- Signer state: the key and algorithm are baked into `hmacDigest` (the
source computes `hmac.new(self._key_bytes, canon, self._digestmod).digest()`). -/
structure Signer where
  hmacDigest : String → String
  b64encode : String → String
  canonicalBytes : Json → String

/-- `Signer.sign`: URL-safe base64 of the HMAC digest of the canonical
payload, with `=` padding stripped. -/
def Signer.sign (sg : Signer) (payload : Json) : String :=
  stripPadding (sg.b64encode (sg.hmacDigest (sg.canonicalBytes payload)))

/-- `Signer.verify`: falsy (empty) signatures are rejected, otherwise a
constant-time comparison with the recomputed signature. -/
def Signer.verify (sg : Signer) (payload : Json) (signature : String) : Bool :=
  if signature = "" then false
  else decide (sg.sign payload = signature)

/-- The signature value read back out of a record (`record[field]`); the
source passes it straight to `hmac.compare_digest`, which only accepts the
string case. -/
def sigToStr : Json → String
  | .str s => s
  | _ => ""

/-- `Signer.sign_record`: signature of the record without its signature
field, embedded back under that field. -/
def Signer.sign_record (sg : Signer) (record : List (String × Json))
    (field : String) : List (String × Json) :=
  let payload := dpop record field
  aset payload field (Json.str (sg.sign (Json.obj payload)))

/-- `Signer.verify_record`: absent signature field means False; otherwise
strip the field and verify. -/
def Signer.verify_record (sg : Signer) (record : List (String × Json))
    (field : String) : Bool :=
  match lookupKey record field with
  | none => false
  | some sig => sg.verify (Json.obj (dpop record field)) (sigToStr sig)

theorem dpop_dpop {α : Type} (d : List (String × α)) (k : String) :
    dpop (dpop d k) k = dpop d k := by
  induction d with
  | nil => simp [dpop]
  | cons hd rest ih =>
    obtain ⟨k1, w⟩ := hd
    by_cases h1 : k1 = k
    · subst h1
      simp [dpop, ih]
    · simp [dpop, h1, ih]

theorem dpop_aset_self {α : Type} (d : List (String × α)) (k : String) (v : α) :
    dpop (aset d k v) k = dpop d k := by
  induction d with
  | nil => simp [aset, dpop]
  | cons hd rest ih =>
    obtain ⟨k1, w⟩ := hd
    by_cases h1 : k1 = k
    · subst h1
      simp [aset, dpop]
    · simp [aset, h1, dpop, ih]

/-- C7: `verify(p, sign(p))` holds for every payload, `verify_record` accepts
the output of `sign_record`, and `verify_record` returns False (rather than
raising) when the signature field is absent. -/
theorem hmac_signer_roundtrip (sg : Signer)
    (hne : ∀ bytes, stripPadding (sg.b64encode bytes) ≠ "") :
    (∀ p, sg.verify p (sg.sign p) = true) ∧
    (∀ r f, sg.verify_record (sg.sign_record r f) f = true) ∧
    (∀ r f, lookupKey r f = none → sg.verify_record r f = false) := by
  have hsign : ∀ p, sg.sign p ≠ "" := fun p => hne _
  have hver : ∀ p, sg.verify p (sg.sign p) = true := by
    intro p
    unfold Signer.verify
    rw [if_neg (hsign p)]
    simp
  refine ⟨hver, ?_, ?_⟩
  · intro r f
    unfold Signer.sign_record Signer.verify_record
    rw [lookupKey_aset_self, dpop_aset_self, dpop_dpop]
    exact hver (Json.obj (dpop r f))
  · intro r f h
    unfold Signer.verify_record
    rw [h]

/-- Concrete signer instantiation for the evaluation (identity digest,
constant base64 stand-in). -/
def signerW : Signer :=
  { hmacDigest := fun s => s, b64encode := fun _ => "abc",
    canonicalBytes := fun _ => "x" }

theorem hmac_signer_roundtrip_witness :
    (signerW.verify (Json.obj []) (signerW.sign (Json.obj [])) = true) ∧
    (signerW.verify_record
      (signerW.sign_record [("a", Json.num 1)] "signature") "signature" = true) ∧
    (signerW.verify_record [("a", Json.num 1)] "signature" = false) := by
  have hne : ∀ bytes, stripPadding (signerW.b64encode bytes) ≠ "" := by
    intro bytes
    show stripPadding "abc" ≠ ""
    decide
  obtain ⟨h1, h2, h3⟩ := hmac_signer_roundtrip signerW hne
  exact ⟨h1 _, h2 _ _, h3 _ _ (by rfl)⟩

/-! ## State tracker (claim C8)

Shallow embedding of `StateTracker` from `theseus/core/state_tracker.py`.
The two external effects, `uuid.uuid4().hex` and `datetime.utcnow()`, enter
as explicit arguments (`gen`, `now`) of `observe_state`. -/

/-- TrackedState from `theseus/core/state_tracker.py`. -/
structure TrackedState where
  state : UIState
  first_seen_at : String
  last_seen_at : String
  times_seen : Int

/-- StateTrackerConfig from `theseus/core/state_tracker.py`. -/
structure StateTrackerConfig where
  prefer_fingerprint_keys : List String
  allow_id_fallback : Bool
  auto_generate_ids : Bool

/-- StateTracker state: states by id and the dedup-key index. -/
structure StateTracker where
  config : StateTrackerConfig
  states_by_id : List (String × TrackedState)
  index_by_key : List (String × String)

/-- First configured fingerprint key with a truthy (non-empty) value. -/
def firstFpKey : List String → List (String × String) → Option (String × String)
  | [], _ => none
  | k :: rest, fps =>
    match lookupKey fps k with
    | some v => if v ≠ "" then some (k, v) else firstFpKey rest fps
    | none => firstFpKey rest fps

/-- `StateTracker._make_dedup_key`: fingerprint priority, then optional id
fallback. -/
def makeDedupKey (cfg : StateTrackerConfig) (state : UIState) : Option String :=
  match firstFpKey cfg.prefer_fingerprint_keys state.fingerprints with
  | some kv => some (kv.1 ++ ":" ++ kv.2)
  | none =>
    if cfg.allow_id_fallback = true ∧ state.id ≠ "" then some ("id:" ++ state.id)
    else none

/-- The id-assignment step at the top of `observe_state`: an empty id is
replaced by a freshly generated one when `auto_generate_ids` is set. -/
def autoId (cfg : StateTrackerConfig) (gen : String) (state : UIState) :
    UIState :=
  if state.id = "" ∧ cfg.auto_generate_ids = true then { state with id := gen }
  else state

/-- `StateTracker.observe_state`, returning `(state_id, is_new)` and the
updated tracker. A known dedup key whose canonical id is missing from
`states_by_id` would raise KeyError in the source; the tracker never creates
that situation, and the model leaves the tracker unchanged there. -/
def StateTracker.observe_state (t : StateTracker) (gen now : String)
    (state : UIState) : (String × Bool) × StateTracker :=
  match makeDedupKey t.config (autoId t.config gen state) with
  | some k =>
    match lookupKey t.index_by_key k with
    | some sid =>
      match lookupKey t.states_by_id sid with
      | some tracked =>
        let tracked2 : TrackedState := { tracked with times_seen := tracked.times_seen + 1, last_seen_at := now }
        ((sid, false), { t with states_by_id := aset t.states_by_id sid tracked2 })
      | none => ((sid, false), t)
    | none =>
      let fresh : TrackedState := { state := autoId t.config gen state, first_seen_at := now, last_seen_at := now, times_seen := 1 }
      (((autoId t.config gen state).id, true),
        { t with states_by_id := aset t.states_by_id (autoId t.config gen state).id fresh, index_by_key := aset t.index_by_key k (autoId t.config gen state).id })
  | none =>
    let fresh : TrackedState := { state := autoId t.config gen state, first_seen_at := now, last_seen_at := now, times_seen := 1 }
    (((autoId t.config gen state).id, true),
      { t with states_by_id := aset t.states_by_id (autoId t.config gen state).id fresh })

theorem fingerprints_autoId (cfg : StateTrackerConfig) (gen : String)
    (state : UIState) : (autoId cfg gen state).fingerprints =
      state.fingerprints := by
  unfold autoId
  split <;> rfl

theorem observe_state_register (t : StateTracker) (gen now : String)
    (state : UIState) (k : String)
    (hk : makeDedupKey t.config (autoId t.config gen state) = some k)
    (hfresh : lookupKey t.index_by_key k = none) :
    t.observe_state gen now state = (((autoId t.config gen state).id, true),
      { t with states_by_id := aset t.states_by_id (autoId t.config gen state).id { state := autoId t.config gen state, first_seen_at := now, last_seen_at := now, times_seen := 1 }, index_by_key := aset t.index_by_key k (autoId t.config gen state).id }) := by
  unfold StateTracker.observe_state
  simp only [hk, hfresh]

theorem observe_state_known (t : StateTracker) (gen now : String)
    (state : UIState) (k sid : String) (tracked : TrackedState)
    (hk : makeDedupKey t.config (autoId t.config gen state) = some k)
    (hidx : lookupKey t.index_by_key k = some sid)
    (htr : lookupKey t.states_by_id sid = some tracked) :
    t.observe_state gen now state = ((sid, false),
      { t with states_by_id := aset t.states_by_id sid { tracked with times_seen := tracked.times_seen + 1, last_seen_at := now } }) := by
  unfold StateTracker.observe_state
  simp only [hk, hidx, htr]

theorem length_aset_of_isSome {α : Type} (d : List (String × α)) (k : String)
    (v : α) (h : (lookupKey d k).isSome = true) :
    (aset d k v).length = d.length := by
  induction d with
  | nil => simp [lookupKey] at h
  | cons hd rest ih =>
    obtain ⟨k1, w⟩ := hd
    by_cases h1 : k1 = k
    · simp [aset, h1]
    · rw [lookupKey] at h
      rw [if_neg h1] at h
      simp [aset, h1, ih h]

/-- C8: two observations whose fingerprint priority yields the same dedup key
coalesce: the first registers a new TrackedState (`times_seen = 1`) and
returns `(id1, true)` for the canonical id `id1`; the second returns
`(id1, false)` regardless of its own id, increments `times_seen` and leaves
the number of tracked states unchanged; with `auto_generate_ids`, an empty id
is replaced by the generated one. -/
theorem state_tracker_dedup (t : StateTracker) (x y : UIState)
    (gen now gen2 now2 fk fv : String)
    (hx : firstFpKey t.config.prefer_fingerprint_keys x.fingerprints =
      some (fk, fv))
    (hy : firstFpKey t.config.prefer_fingerprint_keys y.fingerprints =
      some (fk, fv))
    (hfresh : lookupKey t.index_by_key (fk ++ ":" ++ fv) = none) :
    ((t.observe_state gen now x).1.2 = true) ∧
    ((t.observe_state gen now x).1.1 = (autoId t.config gen x).id) ∧
    (∃ ts, lookupKey ((t.observe_state gen now x).2).states_by_id
        ((t.observe_state gen now x).1.1) = some ts ∧ ts.times_seen = 1) ∧
    ((((t.observe_state gen now x).2).observe_state gen2 now2 y).1.1 =
      (t.observe_state gen now x).1.1) ∧
    ((((t.observe_state gen now x).2).observe_state gen2 now2 y).1.2 = false) ∧
    (∃ ts, lookupKey
        ((((t.observe_state gen now x).2).observe_state gen2 now2 y).2).states_by_id
        ((t.observe_state gen now x).1.1) = some ts ∧ ts.times_seen = 2) ∧
    (((((t.observe_state gen now x).2).observe_state gen2 now2 y).2).states_by_id.length
      = (((t.observe_state gen now x).2)).states_by_id.length) ∧
    (x.id = "" → t.config.auto_generate_ids = true →
      (t.observe_state gen now x).1.1 = gen) := by
  have hkx : makeDedupKey t.config (autoId t.config gen x) =
      some (fk ++ ":" ++ fv) := by
    unfold makeDedupKey
    rw [fingerprints_autoId, hx]
  have h1 := observe_state_register t gen now x (fk ++ ":" ++ fv) hkx hfresh
  have hky : makeDedupKey t.config (autoId t.config gen2 y) =
      some (fk ++ ":" ++ fv) := by
    unfold makeDedupKey
    rw [fingerprints_autoId, hy]
  rw [h1]
  have h2 := observe_state_known
    ((t.observe_state gen now x).2 : StateTracker) gen2 now2 y
    (fk ++ ":" ++ fv) ((autoId t.config gen x).id)
    { state := autoId t.config gen x, first_seen_at := now,
      last_seen_at := now, times_seen := 1 }
    (by rw [h1]; exact hky)
    (by rw [h1]; exact lookupKey_aset_self _ _ _)
    (by rw [h1]; exact lookupKey_aset_self _ _ _)
  rw [h1] at h2
  rw [h2]
  refine ⟨rfl, rfl, ⟨_, lookupKey_aset_self _ _ _, rfl⟩, rfl, rfl,
    ⟨_, lookupKey_aset_self _ _ _, rfl⟩, ?_, ?_⟩
  · exact length_aset_of_isSome _ _ _ (by rw [lookupKey_aset_self]; rfl)
  · intro hid hauto
    unfold autoId
    rw [if_pos ⟨hid, hauto⟩]

/-- Tracker configured as in spec Scenario F. -/
def trackerF : StateTracker :=
  { config := { prefer_fingerprint_keys := ["structural"],
                allow_id_fallback := true, auto_generate_ids := true },
    states_by_id := [], index_by_key := [] }

/-- Observed state X of Scenario F: empty id, structural fingerprint `h1`. -/
def stateX : UIState :=
  { mkUIState "" with fingerprints := [("structural", "h1")] }

/-- Observed state Y of Scenario F: id `other`, same structural fingerprint. -/
def stateY : UIState :=
  { mkUIState "other" with fingerprints := [("structural", "h1")] }

theorem state_tracker_dedup_witness :
    ((trackerF.observe_state "g1" "ts1" stateX).1.2 = true) ∧
    ((trackerF.observe_state "g1" "ts1" stateX).1.1 =
      (autoId trackerF.config "g1" stateX).id) ∧
    (∃ ts, lookupKey ((trackerF.observe_state "g1" "ts1" stateX).2).states_by_id
        ((trackerF.observe_state "g1" "ts1" stateX).1.1) = some ts ∧
        ts.times_seen = 1) ∧
    ((((trackerF.observe_state "g1" "ts1" stateX).2).observe_state "g2" "ts2"
        stateY).1.1 = (trackerF.observe_state "g1" "ts1" stateX).1.1) ∧
    ((((trackerF.observe_state "g1" "ts1" stateX).2).observe_state "g2" "ts2"
        stateY).1.2 = false) ∧
    (∃ ts, lookupKey
        ((((trackerF.observe_state "g1" "ts1" stateX).2).observe_state "g2"
          "ts2" stateY).2).states_by_id
        ((trackerF.observe_state "g1" "ts1" stateX).1.1) = some ts ∧
        ts.times_seen = 2) ∧
    (((((trackerF.observe_state "g1" "ts1" stateX).2).observe_state "g2" "ts2"
        stateY).2).states_by_id.length =
      (((trackerF.observe_state "g1" "ts1" stateX).2)).states_by_id.length) ∧
    (stateX.id = "" → trackerF.config.auto_generate_ids = true →
      (trackerF.observe_state "g1" "ts1" stateX).1.1 = "g1") :=
  state_tracker_dedup trackerF stateX stateY "g1" "ts1" "g2" "ts2"
    "structural" "h1" (by rfl) (by rfl) (by rfl)

/-! ## Shortest path (claims C2, C6)

Shallow embedding of `GraphStore.shortest_path` and
`GraphStore._reconstruct_path`. The `while queue:` loop runs on explicit
fuel; `transitions-count + 1` steps always suffice, because every loop
iteration pops one queue entry and entries are enqueued only when a state is
first visited (at most one per stored transition, plus the source). The
fuel-exhausted outcome is distinguished internally and mapped to `none`.
Set-iteration order of `outgoing[c][s]` is the stored insertion order; the
claims are insensitive to tie-breaking. -/

/-- The BFS parent map `prev`: state id to `(prev_state_id, transition_id)`. -/
def PrevMap : Type := List (String × (Option String × Option String))

/-- Mutable state of the BFS in `shortest_path`. -/
structure BfsSt where
  queue : List String
  visited : List String
  prev : PrevMap
  depth : List (String × Nat)

/-- The inner `for tr_id in outgoing.get(current, [])` loop: follow each
stored transition, visit unvisited targets, and return the parent map as
soon as the target is discovered. -/
def expandEdges (trans : List (String × TransitionRecord)) (target : String)
    (current : String) (curDepth : Nat) :
    List String → BfsSt → Sum PrevMap BfsSt
  | [], st => .inr st
  | trId :: rest, st =>
    match lookupKey trans trId with
    | none => expandEdges trans target current curDepth rest st
    | some tr =>
      if tr.target_state_id ∈ st.visited then
        expandEdges trans target current curDepth rest st
      else
        let nxt := tr.target_state_id
        let st2 : BfsSt :=
          { queue := st.queue, visited := st.visited ++ [nxt],
            prev := aset st.prev nxt (some current, some trId),
            depth := aset st.depth nxt (curDepth + 1) }
        if nxt = target then .inl st2.prev
        else expandEdges trans target current curDepth rest
          { st2 with queue := st2.queue ++ [nxt] }

/-- The `max_depth is not None and current_depth >= max_depth` guard. -/
def depthLimited (maxDepth : Option Nat) (curDepth : Nat) : Bool :=
  match maxDepth with
  | some m => decide (m ≤ curDepth)
  | none => false

/-- One fuel unit per `while queue:` iteration. `none` = out of fuel (never
reached from `shortest_path`), `some none` = queue drained without reaching
the target, `some (some prev)` = target discovered. -/
def bfsLoop (trans : List (String × TransitionRecord))
    (out : String → List String) (target : String) (maxDepth : Option Nat) :
    Nat → BfsSt → Option (Option PrevMap)
  | fuel, st =>
    match st.queue with
    | [] => some none
    | current :: rest =>
      match fuel with
      | 0 => none
      | fuel2 + 1 =>
        let curDepth := (lookupKey st.depth current).getD 0
        if depthLimited maxDepth curDepth then
          bfsLoop trans out target maxDepth fuel2 { st with queue := rest }
        else
          match expandEdges trans target current curDepth (out current)
              { st with queue := rest } with
          | .inl prevMap => some (some prevMap)
          | .inr st2 => bfsLoop trans out target maxDepth fuel2 st2

/-- `GraphStore._reconstruct_path`: walk the parent pointers back from the
target, collecting the stored records, in source-to-target order (the Python
append-then-reverse). Parent chains from a BFS run descend in depth, so
`size of prev + 1` steps always complete the walk. -/
def reconstructPath (trans : List (String × TransitionRecord))
    (prevMap : PrevMap) : Nat → String → List TransitionRecord
  | 0, _ => []
  | fuel + 1, current =>
    match (lookupKey prevMap current).getD (none, none) with
    | (some prevState, some trId) =>
      (match lookupKey trans trId with
       | some tr => reconstructPath trans prevMap fuel prevState ++ [tr]
       | none => reconstructPath trans prevMap fuel prevState)
    | _ => []

/-- `GraphStore.shortest_path`: equal endpoints short-circuit to the empty
path, an empty transition map to `NoPath`, otherwise BFS over the outgoing
index. -/
def GraphStore.shortest_path (σ : GraphStore)
    (context_id source_state_id target_state_id : String)
    (max_depth : Option Nat) : Option (List TransitionRecord) :=
  if source_state_id = target_state_id then some []
  else
    let ctxTr := σ.ctxTransitions context_id
    if ctxTr.isEmpty then none
    else
      let st0 : BfsSt :=
        { queue := [source_state_id], visited := [source_state_id],
          prev := [(source_state_id, (none, none))],
          depth := [(source_state_id, 0)] }
      match bfsLoop ctxTr (fun u => σ.getOut context_id u) target_state_id
          max_depth (ctxTr.length + 1) st0 with
      | some (some prevMap) =>
        some (reconstructPath ctxTr prevMap (prevMap.length + 1)
          target_state_id)
      | some none => none
      | none => none

/-- A path of stored transitions in a context: every record is stored at its
own id, consecutive records chain target-to-source, and the endpoints match. -/
def IsChain (trans : List (String × TransitionRecord)) :
    String → List TransitionRecord → String → Prop
  | s, [], t => s = t
  | s, r :: rest, t =>
    lookupKey trans r.id = some r ∧ r.source_state_id = s ∧
      IsChain trans r.target_state_id rest t

/-- One step of the graph the BFS walks: `e` is listed among the outgoing
ids of `u` and resolves to a stored record with target `v`. -/
def BfsEdge (trans : List (String × TransitionRecord))
    (out : String → List String) (u e v : String) : Prop :=
  e ∈ out u ∧ ∃ tr, lookupKey trans e = some tr ∧ tr.target_state_id = v

/-- A walk in the BFS graph, recorded by its edge ids. -/
inductive BfsWalk (trans : List (String × TransitionRecord))
    (out : String → List String) : String → List String → String → Prop where
  | nil (u : String) : BfsWalk trans out u [] u
  | cons {u e v w : String} {es : List String} :
      BfsEdge trans out u e v → BfsWalk trans out v es w →
      BfsWalk trans out u (e :: es) w

/-- Depth of a state in a BFS state, with the 0 default of `depth.get`. -/
def dG (st : BfsSt) (v : String) : Nat :=
  (lookupKey st.depth v).getD 0

/-- A node at this depth may still be expanded under the depth limit. -/
def mOk (maxD : Option Nat) (du : Nat) : Prop :=
  match maxD with
  | some m => du < m
  | none => True

theorem mOk_of_not_depthLimited (maxD : Option Nat) (du : Nat)
    (h : depthLimited maxD du = false) : mOk maxD du := by
  cases maxD with
  | none => trivial
  | some m =>
    simp [depthLimited] at h
    exact h

theorem not_mOk_of_depthLimited (maxD : Option Nat) (du : Nat)
    (h : depthLimited maxD du = true) : ¬ mOk maxD du := by
  cases maxD with
  | none => simp [depthLimited] at h
  | some m =>
    simp [depthLimited] at h
    simp [mOk]
    exact h

theorem length_aset_of_none {α : Type} (d : List (String × α)) (k : String)
    (v : α) (h : lookupKey d k = none) :
    (aset d k v).length = d.length + 1 := by
  induction d with
  | nil => simp [aset]
  | cons hd rest ih =>
    obtain ⟨k1, w⟩ := hd
    rw [lookupKey] at h
    by_cases h1 : k1 = k
    · rw [if_pos h1] at h
      exact absurd h (by simp)
    · rw [if_neg h1] at h
      simp [aset, h1, ih h]

/-- Store invariant: every transition record is stored under its own id. -/
def KeysInv (σ : GraphStore) : Prop :=
  ∀ c t tr, σ.getTransition c t = some tr → tr.id = t

theorem keysInv_mkStore (cfg : GraphStoreConfig) : KeysInv (mkStore cfg) := by
  intro c t tr h
  simp [mkStore, GraphStore.getTransition, GraphStore.ctxTransitions,
    lookupKey] at h

theorem keysInv_applyOp (σ : GraphStore) (op : StoreOp) (hσ : KeysInv σ) :
    KeysInv (applyOp σ op) := by
  cases op with
  | ctxOp c =>
    rcases applyOp_ctx_eq σ c with he | he <;> rw [he]
    · exact hσ
    · intro c₂ t tr h
      exact hσ c₂ t tr h
  | stateOp r =>
    rcases applyOp_state_eq σ r with he | he <;> rw [he]
    · exact hσ
    · intro c₂ t tr h
      exact hσ c₂ t tr h
  | transOp r inc =>
    cases hok : σ.upsertTransition r inc with
    | ok σ2 =>
      simp only [applyOp, hok]
      intro c₂ t tr h
      rw [getTransition_upsertTransition_ok σ r inc σ2 hok c₂ t] at h
      by_cases hct : c₂ = r.context_id ∧ t = r.id
      · rw [if_pos hct] at h
        cases hl : lookupKey (σ.ctxTransitions r.context_id) r.id with
        | none =>
          rw [hl] at h
          simp only [Option.some.injEq] at h
          subst h
          exact hct.2.symm
        | some existing =>
          rw [hl] at h
          cases inc with
          | true =>
            simp only [Option.some.injEq, if_true] at h
            subst h
            simpa using hct.2.symm
          | false =>
            simp only [Option.some.injEq, if_false] at h
            subst h
            exact hct.2.symm
      · rw [if_neg hct] at h
        exact hσ c₂ t tr h
    | error e =>
      simp only [applyOp, hok]
      exact hσ

theorem keysInv_applyOps (σ : GraphStore) (ops : List StoreOp)
    (hσ : KeysInv σ) : KeysInv (applyOps σ ops) := by
  induction ops generalizing σ with
  | nil => exact hσ
  | cons op rest ih => exact ih (applyOp σ op) (keysInv_applyOp σ op hσ)

theorem isChain_snoc (trans : List (String × TransitionRecord))
    (s : String) (rs : List TransitionRecord) (u : String)
    (tr : TransitionRecord) (hch : IsChain trans s rs u)
    (hst : lookupKey trans tr.id = some tr) (hsrc : tr.source_state_id = u) :
    IsChain trans s (rs ++ [tr]) tr.target_state_id := by
  induction rs generalizing s with
  | nil =>
    rw [IsChain] at hch
    subst hch
    exact ⟨hst, hsrc, rfl⟩
  | cons r rest ih =>
    obtain ⟨h1, h2, h3⟩ := hch
    exact ⟨h1, h2, ih r.target_state_id h3⟩

theorem isChain_walk (trans : List (String × TransitionRecord))
    (out : String → List String)
    (HW : ∀ u tr, lookupKey trans tr.id = some tr → tr.source_state_id = u →
      tr.id ∈ out u) :
    ∀ rs s t, IsChain trans s rs t →
      BfsWalk trans out s (rs.map TransitionRecord.id) t := by
  intro rs
  induction rs with
  | nil =>
    intro s t h
    rw [IsChain] at h
    subst h
    exact BfsWalk.nil s
  | cons r rest ih =>
    intro s t h
    obtain ⟨h1, h2, h3⟩ := h
    exact BfsWalk.cons ⟨HW s r h1 h2, r, h1, rfl⟩ (ih r.target_state_id t h3)

/-- Well-formed parent map produced by the BFS, together with a depth map
that certifies its chains descend towards the source. -/
def PrevWF (trans : List (String × TransitionRecord))
    (out : String → List String) (source : String) (prevMap : PrevMap)
    (dep : List (String × Nat)) : Prop :=
  lookupKey prevMap source = some (none, none) ∧
  lookupKey dep source = some 0 ∧
  ∀ v pr, lookupKey prevMap v = some pr → v ≠ source →
    ∃ u e du tr, pr = (some u, some e) ∧ e ∈ out u ∧
      lookupKey trans e = some tr ∧ tr.target_state_id = v ∧
      (lookupKey prevMap u).isSome = true ∧
      lookupKey dep u = some du ∧ lookupKey dep v = some (du + 1)

/-- A path length that the `max_depth` limit (when set) admits: a target
found at BFS depth `k` was discovered from a node at depth `k - 1 < m`. -/
def withinDepth (maxD : Option Nat) (len : Nat) : Prop :=
  match maxD with
  | some m => len ≤ m
  | none => True

/-- What a run of the BFS guarantees about the returned parent map: the
target sits at depth `k`, the map is well formed, `k` respects the depth
limit, and no walk from the source to the target is shorter than `k`. -/
def FoundSpec (trans : List (String × TransitionRecord))
    (out : String → List String) (maxD : Option Nat)
    (source target : String) (prevMap : PrevMap) (k : Nat) : Prop :=
  ∃ dep, PrevWF trans out source prevMap dep ∧
    lookupKey dep target = some k ∧
    (lookupKey prevMap target).isSome = true ∧
    1 ≤ k ∧ k + 1 ≤ prevMap.length ∧
    withinDepth maxD k ∧
    (∀ es, BfsWalk trans out source es target → k ≤ es.length)

theorem reconstruct_ok (trans : List (String × TransitionRecord))
    (out : String → List String) (source : String) (prevMap : PrevMap)
    (dep : List (String × Nat))
    (HK : ∀ e tr, lookupKey trans e = some tr → tr.id = e)
    (HC : ∀ u e tr, e ∈ out u → lookupKey trans e = some tr →
      tr.source_state_id = u)
    (hwf : PrevWF trans out source prevMap dep) :
    ∀ dv, ∀ v, lookupKey dep v = some dv →
      (lookupKey prevMap v).isSome = true →
      ∀ fuel, dv < fuel →
      IsChain trans source (reconstructPath trans prevMap fuel v) v ∧
      (reconstructPath trans prevMap fuel v).length = dv := by
  intro dv
  induction dv using Nat.strong_induction_on with
  | _ dv ih =>
    intro v hdv hps fuel hfuel
    obtain ⟨hsrc0, hdep0, hwf3⟩ := hwf
    match fuel, hfuel with
    | fuel2 + 1, _ =>
      by_cases hv : v = source
      · subst hv
        rw [hdep0] at hdv
        injection hdv with hdv
        subst hdv
        rw [reconstructPath, hsrc0]
        exact ⟨rfl, rfl⟩
      · obtain ⟨pr, hpr⟩ := Option.isSome_iff_exists.mp hps
        obtain ⟨u, e, du, tr, hpre, hout, hst, htgt, hups, hdu, hdv2⟩ :=
          hwf3 v pr hpr hv
        rw [hdv2] at hdv
        injection hdv with hdv
        subst hdv
        subst hpre
        rw [reconstructPath, hpr]
        simp only [Option.getD_some, hst]
        have hdu_lt : du < du + 1 := Nat.lt_succ_self du
        have hfu : du < fuel2 := by omega
        obtain ⟨hch, hlen⟩ := ih du hdu_lt u hdu hups fuel2 hfu
        constructor
        · have hid := HK e tr hst
          have hchain := isChain_snoc trans source
            (reconstructPath trans prevMap fuel2 u) u tr hch
            (by rw [hid]; exact hst) (HC u e tr hout hst)
          rw [htgt] at hchain
          exact hchain
        · simp [hlen]

/-- Invariant holding while the BFS expands the edges of `current` (with
`es` the not-yet-processed suffix of `out current`); also the top-of-loop
invariant specialized to a just-popped head. -/
structure MID (trans : List (String × TransitionRecord))
    (out : String → List String) (target source current : String)
    (maxD : Option Nat) (curDepth : Nat) (es : List String)
    (st : BfsSt) : Prop where
  sub_qv : ∀ v ∈ st.queue, v ∈ st.visited
  nodup_v : st.visited.Nodup
  q_nodup : st.queue.Nodup
  keys_depth : ∀ v, (lookupKey st.depth v).isSome = true ↔ v ∈ st.visited
  keys_prev : ∀ v, (lookupKey st.prev v).isSome = true ↔ v ∈ st.visited
  prev_src : lookupKey st.prev source = some (none, none)
  depth_src : lookupKey st.depth source = some 0
  src_vis : source ∈ st.visited
  prev_wf : ∀ v ∈ st.visited, v ≠ source →
    ∃ u e du tr, lookupKey st.prev v = some (some u, some e) ∧
      e ∈ out u ∧ lookupKey trans e = some tr ∧ tr.target_state_id = v ∧
      u ∈ st.visited ∧ lookupKey st.depth u = some du ∧
      lookupKey st.depth v = some (du + 1)
  expanded_other : ∀ u ∈ st.visited, u ∉ st.queue → u ≠ current →
    mOk maxD (dG st u) → ∀ e v, BfsEdge trans out u e v →
      v ∈ st.visited ∧ dG st v ≤ dG st u + 1
  dbound : ∀ v ∈ st.visited, dG st v + 1 ≤ st.visited.length
  len_prev : st.prev.length = st.visited.length
  tnv : target ∉ st.visited
  cur_depth : lookupKey st.depth current = some curDepth
  cur_vis : current ∈ st.visited
  cur_notq : current ∉ st.queue
  cur_ok : mOk maxD curDepth
  partial_exp : ∃ pre, out current = pre ++ es ∧
    ∀ e ∈ pre, ∀ tr, lookupKey trans e = some tr →
      tr.target_state_id ∈ st.visited
  q_lo : ∀ v ∈ st.queue, curDepth ≤ dG st v
  q_hi : ∀ v ∈ st.queue, dG st v ≤ curDepth + 1
  q_sorted : List.Pairwise (fun a b => dG st a ≤ dG st b) st.queue
  proc_le : ∀ u ∈ st.visited, u ∉ st.queue → u ≠ current →
    dG st u ≤ curDepth
  visdep : ∀ v ∈ st.visited, dG st v ≤ curDepth + 1

theorem walk_visits {trans : List (String × TransitionRecord)}
    {out : String → List String} {target source current : String}
    {maxD : Option Nat} {curDepth : Nat} {es : List String} {st : BfsSt}
    (hm : MID trans out target source current maxD curDepth es st) :
    ∀ es2 v0 vm, BfsWalk trans out v0 es2 vm → v0 ∈ st.visited →
      dG st v0 + es2.length ≤ curDepth →
      vm ∈ st.visited ∧ dG st vm ≤ dG st v0 + es2.length := by
  intro es2 v0 vm hwalk
  induction hwalk with
  | nil u => exact fun hv _ => ⟨hv, Nat.le_refl _⟩
  | cons hedge hwalk2 ih =>
    rename_i u e v w es3
    intro hu hlen
    simp only [List.length_cons] at hlen
    have hlt : dG st u < curDepth := by omega
    have hnin : u ∉ st.queue := fun hq => absurd (hm.q_lo u hq) (by omega)
    have hne : u ≠ current := by
      intro hh
      subst hh
      have : dG st u = curDepth := by simp [dG, hm.cur_depth]
      omega
    have hok : mOk maxD (dG st u) := by
      cases hmd : maxD with
      | none => trivial
      | some m =>
        have := hm.cur_ok
        rw [hmd] at this
        simp only [mOk] at this ⊢
        omega
    obtain ⟨hv, hdv⟩ := hm.expanded_other u hu hnin hne hok e v hedge
    obtain ⟨hw, hdw⟩ := ih hv (by omega)
    refine ⟨hw, ?_⟩
    simp only [List.length_cons]
    omega

theorem MID_step_skip {trans : List (String × TransitionRecord)}
    {out : String → List String} {target source current : String}
    {maxD : Option Nat} {curDepth : Nat} {trId : String} {rest : List String}
    {st : BfsSt}
    (hm : MID trans out target source current maxD curDepth (trId :: rest) st)
    (hcond : ∀ tr, lookupKey trans trId = some tr →
      tr.target_state_id ∈ st.visited) :
    MID trans out target source current maxD curDepth rest st :=
  { hm with
    partial_exp := by
      obtain ⟨pre, hpre, hall⟩ := hm.partial_exp
      refine ⟨pre ++ [trId], ?_, ?_⟩
      · rw [hpre, List.append_assoc, List.singleton_append]
      · intro e he tr hstr
        rcases List.mem_append.mp he with he2 | he2
        · exact hall e he2 tr hstr
        · rw [List.mem_singleton] at he2
          subst he2
          exact hcond tr hstr }

/-- The state produced by visiting a fresh neighbour during expansion. -/
def bfsExtend (st : BfsSt) (current trId nxtv : String) (curDepth : Nat) :
    BfsSt :=
  { queue := st.queue ++ [nxtv], visited := st.visited ++ [nxtv],
    prev := aset st.prev nxtv (some current, some trId),
    depth := aset st.depth nxtv (curDepth + 1) }

theorem expandEdges_spec (trans : List (String × TransitionRecord))
    (out : String → List String) (target source current : String)
    (maxD : Option Nat) (curDepth : Nat) :
    ∀ es st, MID trans out target source current maxD curDepth es st →
      (∀ st2, expandEdges trans target current curDepth es st = .inr st2 →
        MID trans out target source current maxD curDepth [] st2) ∧
      (∀ prevMap,
        expandEdges trans target current curDepth es st = .inl prevMap →
        FoundSpec trans out maxD source target prevMap (curDepth + 1)) := by
  intro es
  induction es with
  | nil =>
    intro st hm
    constructor
    · intro st2 h
      rw [expandEdges] at h
      injection h with h
      rw [← h]
      exact hm
    · intro prevMap h
      rw [expandEdges] at h
      exact absurd h (by simp)
  | cons trId rest ih =>
    intro st hm
    cases hl : lookupKey trans trId with
    | none =>
      have hm2 := MID_step_skip hm (fun tr hstr => absurd hstr (by simp [hl]))
      have hred : expandEdges trans target current curDepth (trId :: rest) st =
          expandEdges trans target current curDepth rest st := by
        simp only [expandEdges, hl]
      rw [hred]
      exact ih st hm2
    | some tr =>
      by_cases hvis : tr.target_state_id ∈ st.visited
      · have hm2 := MID_step_skip hm (fun tr2 hstr => by
          rw [hl] at hstr
          injection hstr with he
          subst he
          exact hvis)
        have hred : expandEdges trans target current curDepth (trId :: rest) st
            = expandEdges trans target current curDepth rest st := by
          simp only [expandEdges, hl, if_pos hvis]
        rw [hred]
        exact ih st hm2
      · have hnv : tr.target_state_id ∉ st.visited := hvis
        have hdnone : lookupKey st.depth tr.target_state_id = none := by
          rcases hh : lookupKey st.depth tr.target_state_id with _ | dv
          · rfl
          · exact absurd ((hm.keys_depth _).mp (by simp [hh])) hnv
        have hpnone : lookupKey st.prev tr.target_state_id = none := by
          rcases hh : lookupKey st.prev tr.target_state_id with _ | pv
          · rfl
          · exact absurd ((hm.keys_prev _).mp (by simp [hh])) hnv
        have hvis_ne : ∀ v ∈ st.visited, v ≠ tr.target_state_id :=
          fun v hv hh => hnv (hh ▸ hv)
        have hcur_ne : current ≠ tr.target_state_id :=
          hvis_ne current hm.cur_vis
        have hsrc_ne : source ≠ tr.target_state_id :=
          hvis_ne source hm.src_vis
        have htrIdmem : trId ∈ out current := by
          obtain ⟨pre, hpre, _⟩ := hm.partial_exp
          rw [hpre]
          exact List.mem_append.mpr (Or.inr (by simp))
        by_cases htgt : tr.target_state_id = target
        · have hsrc_ne2 : source ≠ target :=
            fun hh => hsrc_ne (hh.trans htgt.symm)
          have hcur_ne2 : current ≠ target :=
            fun hh => hcur_ne (hh.trans htgt.symm)
          have hvis_ne2 : ∀ v ∈ st.visited, v ≠ target :=
            fun v hv hh => hvis_ne v hv (hh.trans htgt.symm)
          have hpnone2 : lookupKey st.prev target = none := htgt ▸ hpnone
          have hvisT : target ∉ st.visited := htgt ▸ hvis
          have hred : expandEdges trans target current curDepth (trId :: rest)
              st = .inl (aset st.prev target (some current, some trId)) := by
            simp [expandEdges, hl, hvisT, htgt]
          rw [hred]
          constructor
          · intro st2 h
            exact absurd h (by simp)
          · intro prevMap h
            injection h with h
            subst h
            refine ⟨aset st.depth target (curDepth + 1), ⟨?_, ?_, ?_⟩,
              ?_, ?_, ?_, ?_, ?_, ?_⟩
            · rw [lookupKey_aset_ne _ _ _ _ hsrc_ne2]
              exact hm.prev_src
            · rw [lookupKey_aset_ne _ _ _ _ hsrc_ne2]
              exact hm.depth_src
            · intro v pr hpr hvs
              by_cases hvt : v = target
              · subst hvt
                rw [lookupKey_aset_self] at hpr
                injection hpr with hpr
                refine ⟨current, trId, curDepth, tr, hpr.symm, htrIdmem, hl,
                  htgt, ?_, ?_, ?_⟩
                · rw [lookupKey_aset_ne _ _ _ _ hcur_ne2]
                  exact (hm.keys_prev current).mpr hm.cur_vis
                · rw [lookupKey_aset_ne _ _ _ _ hcur_ne2]
                  exact hm.cur_depth
                · exact lookupKey_aset_self _ _ _
              · rw [lookupKey_aset_ne _ _ _ _ hvt] at hpr
                have hvmem : v ∈ st.visited := (hm.keys_prev v).mp (by
                  simp [hpr])
                obtain ⟨u, e, du, tr2, hp, ho, hs, ht, hu, hdu, hdv⟩ :=
                  hm.prev_wf v hvmem hvs
                have hune : u ≠ target := hvis_ne2 u hu
                refine ⟨u, e, du, tr2, ?_, ho, hs, ht, ?_, ?_, ?_⟩
                · rw [hp] at hpr
                  injection hpr with hpr
                  exact hpr.symm
                · rw [lookupKey_aset_ne _ _ _ _ hune]
                  exact (hm.keys_prev u).mpr hu
                · rw [lookupKey_aset_ne _ _ _ _ hune]
                  exact hdu
                · rw [lookupKey_aset_ne _ _ _ _ hvt]
                  exact hdv
            · exact lookupKey_aset_self _ _ _
            · rw [lookupKey_aset_self]
              rfl
            · omega
            · rw [length_aset_of_none _ _ _ hpnone2, hm.len_prev]
              have hcd := hm.dbound current hm.cur_vis
              have hcd2 : dG st current = curDepth := by
                simp [dG, hm.cur_depth]
              omega
            · have hco := hm.cur_ok
              cases maxD with
              | none => trivial
              | some m =>
                simp only [mOk] at hco
                simp only [withinDepth]
                omega
            · intro es2 hw
              by_contra hlt
              push_neg at hlt
              have hsd : dG st source = 0 := by simp [dG, hm.depth_src]
              have hres := walk_visits hm es2 source target hw hm.src_vis
                (by omega)
              exact hm.tnv hres.1
        · have hred : expandEdges trans target current curDepth (trId :: rest)
              st = expandEdges trans target current curDepth rest
                (bfsExtend st current trId tr.target_state_id curDepth) := by
            simp only [expandEdges, hl, if_neg hvis, if_neg htgt, bfsExtend]
          rw [hred]
          refine ih _ ?_
          refine
            { sub_qv := ?sub_qv, nodup_v := ?nodup_v, q_nodup := ?q_nodup,
              keys_depth := ?keys_depth, keys_prev := ?keys_prev,
              prev_src := ?prev_src, depth_src := ?depth_src,
              src_vis := ?src_vis, prev_wf := ?prev_wf,
              expanded_other := ?expanded_other, dbound := ?dbound,
              len_prev := ?len_prev, tnv := ?tnv,
              cur_depth := ?cur_depth, cur_vis := ?cur_vis,
              cur_notq := ?cur_notq, cur_ok := ?cur_ok,
              partial_exp := ?partial_exp, q_lo := ?q_lo, q_hi := ?q_hi,
              q_sorted := ?q_sorted, proc_le := ?proc_le, visdep := ?visdep }
          case sub_qv =>
            simp only [bfsExtend]
            intro v hv
            rcases List.mem_append.mp hv with hv2 | hv2
            · exact List.mem_append.mpr (Or.inl (hm.sub_qv v hv2))
            · exact List.mem_append.mpr (Or.inr hv2)
          case q_nodup =>
            simp only [bfsExtend]
            simp only [List.nodup_append, List.nodup_cons,
              List.not_mem_nil, not_false_eq_true, List.nodup_nil, and_true,
              true_and, List.disjoint_singleton]
            exact ⟨hm.q_nodup, fun hh => hvis (hm.sub_qv _ hh)⟩
          case nodup_v =>
            simp only [bfsExtend]
            simp only [List.nodup_append, List.nodup_cons,
              List.not_mem_nil, not_false_eq_true, List.nodup_nil, and_true,
              true_and, List.disjoint_singleton]
            exact ⟨hm.nodup_v, hvis⟩
          case keys_depth =>
            simp only [bfsExtend]
            intro v
            by_cases hvn : v = tr.target_state_id
            · subst hvn
              simp [lookupKey_aset_self]
            · rw [lookupKey_aset_ne _ _ _ _ hvn]
              rw [hm.keys_depth v]
              simp [List.mem_append, hvn]
          case keys_prev =>
            simp only [bfsExtend]
            intro v
            by_cases hvn : v = tr.target_state_id
            · subst hvn
              simp [lookupKey_aset_self]
            · rw [lookupKey_aset_ne _ _ _ _ hvn]
              rw [hm.keys_prev v]
              simp [List.mem_append, hvn]
          case prev_src =>
            simp only [bfsExtend]
            rw [lookupKey_aset_ne _ _ _ _ hsrc_ne]
            exact hm.prev_src
          case depth_src =>
            simp only [bfsExtend]
            rw [lookupKey_aset_ne _ _ _ _ hsrc_ne]
            exact hm.depth_src
          case src_vis => exact List.mem_append.mpr (Or.inl hm.src_vis)
          case prev_wf =>
            simp only [bfsExtend]
            intro v hv hvs
            rcases List.mem_append.mp hv with hv2 | hv2
            · obtain ⟨u, e, du, tr2, hp, ho, hs, ht, hu, hdu, hdv⟩ :=
                hm.prev_wf v hv2 hvs
              have hvne := hvis_ne v hv2
              have hune := hvis_ne u hu
              refine ⟨u, e, du, tr2, ?_, ho, hs, ht,
                List.mem_append.mpr (Or.inl hu), ?_, ?_⟩
              · rw [lookupKey_aset_ne _ _ _ _ hvne]
                exact hp
              · rw [lookupKey_aset_ne _ _ _ _ hune]
                exact hdu
              · rw [lookupKey_aset_ne _ _ _ _ hvne]
                exact hdv
            · rw [List.mem_singleton] at hv2
              subst hv2
              refine ⟨current, trId, curDepth, tr, lookupKey_aset_self _ _ _,
                htrIdmem, hl, rfl, List.mem_append.mpr (Or.inl hm.cur_vis),
                ?_, lookupKey_aset_self _ _ _⟩
              rw [lookupKey_aset_ne _ _ _ _ hcur_ne]
              exact hm.cur_depth
          case expanded_other =>
            simp only [bfsExtend]
            intro u hu hq hne hok e v hedge
            have hun : u ≠ tr.target_state_id := by
              intro hh
              exact hq (List.mem_append.mpr (Or.inr (by simp [hh])))
            have hu2 : u ∈ st.visited := by
              rcases List.mem_append.mp hu with h2 | h2
              · exact h2
              · rw [List.mem_singleton] at h2
                exact absurd h2 hun
            have hq2 : u ∉ st.queue :=
              fun hh => hq (List.mem_append.mpr (Or.inl hh))
            have hok2 : mOk maxD (dG st u) := by
              simpa [dG, lookupKey_aset_ne _ _ _ _ hun] using hok
            obtain ⟨hvv, hdd⟩ :=
              hm.expanded_other u hu2 hq2 hne hok2 e v hedge
            have hvn := hvis_ne v hvv
            refine ⟨List.mem_append.mpr (Or.inl hvv), ?_⟩
            simpa [dG, lookupKey_aset_ne _ _ _ _ hvn,
              lookupKey_aset_ne _ _ _ _ hun] using hdd
          case dbound =>
            simp only [bfsExtend]
            intro v hv
            simp only [List.length_append, List.length_singleton]
            rcases List.mem_append.mp hv with hv2 | hv2
            · have hvn := hvis_ne v hv2
              simp only [dG, lookupKey_aset_ne _ _ _ _ hvn]
              have := hm.dbound v hv2
              simp only [dG] at this
              omega
            · rw [List.mem_singleton] at hv2
              subst hv2
              simp only [dG, lookupKey_aset_self, Option.getD_some]
              have := hm.dbound current hm.cur_vis
              simp only [dG, hm.cur_depth, Option.getD_some] at this
              omega
          case len_prev =>
            simp only [bfsExtend]
            rw [length_aset_of_none _ _ _ hpnone, hm.len_prev]
            simp
          case tnv =>
            simp only [bfsExtend]
            intro hh
            rcases List.mem_append.mp hh with h2 | h2
            · exact hm.tnv h2
            · rw [List.mem_singleton] at h2
              exact htgt h2.symm
          case cur_depth =>
            simp only [bfsExtend]
            rw [lookupKey_aset_ne _ _ _ _ hcur_ne]
            exact hm.cur_depth
          case cur_vis => exact List.mem_append.mpr (Or.inl hm.cur_vis)
          case cur_notq =>
            simp only [bfsExtend]
            intro hh
            rcases List.mem_append.mp hh with h2 | h2
            · exact hm.cur_notq h2
            · rw [List.mem_singleton] at h2
              exact hcur_ne h2
          case cur_ok => exact hm.cur_ok
          case partial_exp =>
            simp only [bfsExtend]
            obtain ⟨pre, hpre, hall⟩ := hm.partial_exp
            refine ⟨pre ++ [trId], ?_, ?_⟩
            · rw [hpre, List.append_assoc, List.singleton_append]
            · intro e he tr2 hstr
              rcases List.mem_append.mp he with he2 | he2
              · exact List.mem_append.mpr (Or.inl (hall e he2 tr2 hstr))
              · rw [List.mem_singleton] at he2
                subst he2
                rw [hl] at hstr
                injection hstr with he3
                subst he3
                exact List.mem_append.mpr (Or.inr (by simp))
          case q_lo =>
            simp only [bfsExtend]
            intro v hv
            rcases List.mem_append.mp hv with hv2 | hv2
            · have hvn := hvis_ne v (hm.sub_qv v hv2)
              simp only [dG, lookupKey_aset_ne _ _ _ _ hvn]
              exact hm.q_lo v hv2
            · rw [List.mem_singleton] at hv2
              subst hv2
              simp [dG, lookupKey_aset_self]
          case q_hi =>
            simp only [bfsExtend]
            intro v hv
            rcases List.mem_append.mp hv with hv2 | hv2
            · have hvn := hvis_ne v (hm.sub_qv v hv2)
              simp only [dG, lookupKey_aset_ne _ _ _ _ hvn]
              exact hm.q_hi v hv2
            · rw [List.mem_singleton] at hv2
              subst hv2
              simp [dG, lookupKey_aset_self]
          case q_sorted =>
            simp only [bfsExtend]
            rw [List.pairwise_append]
            refine ⟨?_, by simp, ?_⟩
            · refine hm.q_sorted.imp_of_mem ?_
              intro a b ha hb hab
              have han := hvis_ne a (hm.sub_qv a ha)
              have hbn := hvis_ne b (hm.sub_qv b hb)
              simp only [dG, lookupKey_aset_ne _ _ _ _ han,
                lookupKey_aset_ne _ _ _ _ hbn]
              exact hab
            · intro a ha b hb
              rw [List.mem_singleton] at hb
              subst hb
              have han := hvis_ne a (hm.sub_qv a ha)
              simp only [dG, lookupKey_aset_ne _ _ _ _ han,
                lookupKey_aset_self, Option.getD_some]
              exact hm.q_hi a ha
          case proc_le =>
            simp only [bfsExtend]
            intro u hu hq hne
            have hun : u ≠ tr.target_state_id := by
              intro hh
              exact hq (List.mem_append.mpr (Or.inr (by simp [hh])))
            have hu2 : u ∈ st.visited := by
              rcases List.mem_append.mp hu with h2 | h2
              · exact h2
              · rw [List.mem_singleton] at h2
                exact absurd h2 hun
            have hq2 : u ∉ st.queue :=
              fun hh => hq (List.mem_append.mpr (Or.inl hh))
            simp only [dG, lookupKey_aset_ne _ _ _ _ hun]
            exact hm.proc_le u hu2 hq2 hne
          case visdep =>
            simp only [bfsExtend]
            intro v hv
            rcases List.mem_append.mp hv with hv2 | hv2
            · have hvn := hvis_ne v hv2
              simp only [dG, lookupKey_aset_ne _ _ _ _ hvn]
              exact hm.visdep v hv2
            · rw [List.mem_singleton] at hv2
              subst hv2
              simp [dG, lookupKey_aset_self]

/-- Top-of-loop invariant of the BFS `while queue:` loop, before a head is
popped: the queue is a nodup prefix-band of the frontier, every state off the
queue has been fully expanded, and the parent/depth maps are well formed. -/
structure LoopInv (trans : List (String × TransitionRecord))
    (out : String → List String) (target source : String)
    (maxD : Option Nat) (st : BfsSt) : Prop where
  sub_qv : ∀ v ∈ st.queue, v ∈ st.visited
  nodup_v : st.visited.Nodup
  q_nodup : st.queue.Nodup
  keys_depth : ∀ v, (lookupKey st.depth v).isSome = true ↔ v ∈ st.visited
  keys_prev : ∀ v, (lookupKey st.prev v).isSome = true ↔ v ∈ st.visited
  prev_src : lookupKey st.prev source = some (none, none)
  depth_src : lookupKey st.depth source = some 0
  src_vis : source ∈ st.visited
  prev_wf : ∀ v ∈ st.visited, v ≠ source →
    ∃ u e du tr, lookupKey st.prev v = some (some u, some e) ∧
      e ∈ out u ∧ lookupKey trans e = some tr ∧ tr.target_state_id = v ∧
      u ∈ st.visited ∧ lookupKey st.depth u = some du ∧
      lookupKey st.depth v = some (du + 1)
  expanded : ∀ u ∈ st.visited, u ∉ st.queue →
    mOk maxD (dG st u) → ∀ e v, BfsEdge trans out u e v →
      v ∈ st.visited ∧ dG st v ≤ dG st u + 1
  dbound : ∀ v ∈ st.visited, dG st v + 1 ≤ st.visited.length
  len_prev : st.prev.length = st.visited.length
  tnv : target ∉ st.visited
  proc_le_q : ∀ u ∈ st.visited, u ∉ st.queue → ∀ b ∈ st.queue,
    dG st u ≤ dG st b
  visdep_q : ∀ v ∈ st.visited, ∀ b ∈ st.queue, dG st v ≤ dG st b + 1
  q_sorted : List.Pairwise (fun a b => dG st a ≤ dG st b) st.queue

theorem loopInv_init (trans : List (String × TransitionRecord))
    (out : String → List String) (target source : String)
    (maxD : Option Nat) (hne : source ≠ target) :
    LoopInv trans out target source maxD
      { queue := [source], visited := [source],
        prev := [(source, (none, none))], depth := [(source, 0)] } := by
  refine
    { sub_qv := fun v hv => hv, nodup_v := List.nodup_singleton source,
      q_nodup := List.nodup_singleton source, keys_depth := ?_,
      keys_prev := ?_, prev_src := by simp [lookupKey],
      depth_src := by simp [lookupKey], src_vis := by simp,
      prev_wf := ?_, expanded := fun u hu hnq => absurd hu hnq,
      dbound := ?_, len_prev := rfl, tnv := ?_,
      proc_le_q := fun u hu hnq => absurd hu hnq, visdep_q := ?_,
      q_sorted := List.pairwise_singleton _ _ }
  · intro v
    by_cases h : source = v
    · subst h
      simp [lookupKey]
    · simp only [lookupKey, if_neg h, List.mem_singleton]
      simp only [Option.isSome_none, Bool.false_eq_true, false_iff]
      exact fun hh => h hh.symm
  · intro v
    by_cases h : source = v
    · subst h
      simp [lookupKey]
    · simp only [lookupKey, if_neg h, List.mem_singleton]
      simp only [Option.isSome_none, Bool.false_eq_true, false_iff]
      exact fun hh => h hh.symm
  · intro v hv hvs
    rw [List.mem_singleton] at hv
    exact absurd hv hvs
  · intro v hv
    rw [List.mem_singleton] at hv
    subst hv
    simp [dG, lookupKey]
  · simp only [List.mem_singleton]
    exact fun hh => hne hh.symm
  · intro v hv b hb
    rw [List.mem_singleton] at hv hb
    subst hv
    subst hb
    simp [dG, lookupKey]

theorem MID_of_pop {trans : List (String × TransitionRecord)}
    {out : String → List String} {target source : String}
    {maxD : Option Nat} {st : BfsSt} {current : String} {rest : List String}
    (hl : LoopInv trans out target source maxD st)
    (hq : st.queue = current :: rest)
    (hok : mOk maxD ((lookupKey st.depth current).getD 0)) :
    MID trans out target source current maxD
      ((lookupKey st.depth current).getD 0) (out current)
      { st with queue := rest } := by
  have hcq : current ∈ st.queue := by
    rw [hq]
    exact List.mem_cons_self _ _
  have hcv : current ∈ st.visited := hl.sub_qv current hcq
  have hds : (lookupKey st.depth current).isSome = true :=
    (hl.keys_depth current).mpr hcv
  obtain ⟨cd, hcd⟩ := Option.isSome_iff_exists.mp hds
  have hcd2 : lookupKey st.depth current =
      some ((lookupKey st.depth current).getD 0) := by
    rw [hcd]
    rfl
  have hqn := hl.q_nodup
  rw [hq] at hqn
  have hcnr : current ∉ rest := (List.nodup_cons.mp hqn).1
  have hrn : rest.Nodup := (List.nodup_cons.mp hqn).2
  have hqs := hl.q_sorted
  rw [hq] at hqs
  obtain ⟨hlo, htail⟩ := List.pairwise_cons.mp hqs
  have hrsub : ∀ v ∈ rest, v ∈ st.queue := by
    intro v hv
    rw [hq]
    exact List.mem_cons_of_mem _ hv
  refine
    { sub_qv := ?_, nodup_v := hl.nodup_v, q_nodup := hrn,
      keys_depth := hl.keys_depth, keys_prev := hl.keys_prev,
      prev_src := hl.prev_src, depth_src := hl.depth_src,
      src_vis := hl.src_vis, prev_wf := hl.prev_wf,
      expanded_other := ?_, dbound := hl.dbound, len_prev := hl.len_prev,
      tnv := hl.tnv, cur_depth := hcd2, cur_vis := hcv, cur_notq := hcnr,
      cur_ok := hok, partial_exp := ⟨[], rfl, ?_⟩, q_lo := ?_, q_hi := ?_,
      q_sorted := htail, proc_le := ?_, visdep := ?_ }
  · intro v hv
    exact hl.sub_qv v (hrsub v hv)
  · intro u hu hnr hne hok2 e v hedge
    have hnq : u ∉ st.queue := by
      rw [hq]
      intro hmem
      rcases List.mem_cons.mp hmem with h1 | h1
      · exact hne h1
      · exact hnr h1
    exact hl.expanded u hu hnq hok2 e v hedge
  · intro e he
    exact absurd he (List.not_mem_nil e)
  · intro v hv
    exact hlo v hv
  · intro v hv
    exact hl.visdep_q v (hl.sub_qv v (hrsub v hv)) current hcq
  · intro u hu hnr hne
    have hnq : u ∉ st.queue := by
      rw [hq]
      intro hmem
      rcases List.mem_cons.mp hmem with h1 | h1
      · exact hne h1
      · exact hnr h1
    exact hl.proc_le_q u hu hnq current hcq
  · intro v hv
    exact hl.visdep_q v hv current hcq

theorem loopInv_of_MID {trans : List (String × TransitionRecord)}
    {out : String → List String} {target source current : String}
    {maxD : Option Nat} {curDepth : Nat} {st : BfsSt}
    (hm : MID trans out target source current maxD curDepth [] st) :
    LoopInv trans out target source maxD st := by
  have hdc : dG st current = curDepth := by
    simp [dG, hm.cur_depth]
  refine
    { sub_qv := hm.sub_qv, nodup_v := hm.nodup_v, q_nodup := hm.q_nodup,
      keys_depth := hm.keys_depth, keys_prev := hm.keys_prev,
      prev_src := hm.prev_src, depth_src := hm.depth_src,
      src_vis := hm.src_vis, prev_wf := hm.prev_wf, expanded := ?_,
      dbound := hm.dbound, len_prev := hm.len_prev, tnv := hm.tnv,
      proc_le_q := ?_, visdep_q := ?_, q_sorted := hm.q_sorted }
  · intro u hu hnq hok2 e v hedge
    by_cases hne : u = current
    · subst hne
      obtain ⟨pre, hpre, hall⟩ := hm.partial_exp
      rw [List.append_nil] at hpre
      simp only [BfsEdge] at hedge
      obtain ⟨hmem, tr, hltr, htgt⟩ := hedge
      rw [hpre] at hmem
      have hvv : tr.target_state_id ∈ st.visited := hall e hmem tr hltr
      rw [htgt] at hvv
      refine ⟨hvv, ?_⟩
      rw [hdc]
      exact hm.visdep v hvv
    · exact hm.expanded_other u hu hnq hne hok2 e v hedge
  · intro u hu hnq b hb
    by_cases hne : u = current
    · subst hne
      rw [hdc]
      exact hm.q_lo b hb
    · exact le_trans (hm.proc_le u hu hnq hne) (hm.q_lo b hb)
  · intro v hv b hb
    have h1 := hm.visdep v hv
    have h2 := hm.q_lo b hb
    omega

theorem loopInv_skip {trans : List (String × TransitionRecord)}
    {out : String → List String} {target source : String}
    {maxD : Option Nat} {st : BfsSt} {current : String} {rest : List String}
    (hl : LoopInv trans out target source maxD st)
    (hq : st.queue = current :: rest)
    (hlim : depthLimited maxD ((lookupKey st.depth current).getD 0) = true) :
    LoopInv trans out target source maxD { st with queue := rest } := by
  have hqn := hl.q_nodup
  rw [hq] at hqn
  have hrn : rest.Nodup := (List.nodup_cons.mp hqn).2
  have hqs := hl.q_sorted
  rw [hq] at hqs
  obtain ⟨hlo, htail⟩ := List.pairwise_cons.mp hqs
  have hrsub : ∀ v ∈ rest, v ∈ st.queue := by
    intro v hv
    rw [hq]
    exact List.mem_cons_of_mem _ hv
  have hnok : ¬ mOk maxD (dG st current) :=
    not_mOk_of_depthLimited maxD _ hlim
  refine
    { sub_qv := ?_, nodup_v := hl.nodup_v, q_nodup := hrn,
      keys_depth := hl.keys_depth, keys_prev := hl.keys_prev,
      prev_src := hl.prev_src, depth_src := hl.depth_src,
      src_vis := hl.src_vis, prev_wf := hl.prev_wf, expanded := ?_,
      dbound := hl.dbound, len_prev := hl.len_prev, tnv := hl.tnv,
      proc_le_q := ?_, visdep_q := ?_, q_sorted := htail }
  · intro v hv
    exact hl.sub_qv v (hrsub v hv)
  · intro u hu hnr hok2 e v hedge
    by_cases hne : u = current
    · subst hne
      exact absurd hok2 hnok
    · have hnq : u ∉ st.queue := by
        rw [hq]
        intro hmem
        rcases List.mem_cons.mp hmem with h1 | h1
        · exact hne h1
        · exact hnr h1
      exact hl.expanded u hu hnq hok2 e v hedge
  · intro u hu hnr b hb
    by_cases hne : u = current
    · subst hne
      exact hlo b hb
    · have hnq : u ∉ st.queue := by
        rw [hq]
        intro hmem
        rcases List.mem_cons.mp hmem with h1 | h1
        · exact hne h1
        · exact hnr h1
      exact hl.proc_le_q u hu hnq b (hrsub b hb)
  · intro v hv b hb
    exact hl.visdep_q v hv b (hrsub b hb)

theorem bfsLoop_nil (trans : List (String × TransitionRecord))
    (out : String → List String) (target : String) (maxD : Option Nat)
    (fuel : Nat) (st : BfsSt) (h : st.queue = []) :
    bfsLoop trans out target maxD fuel st = some none := by
  rw [bfsLoop, h]

theorem bfsLoop_zero (trans : List (String × TransitionRecord))
    (out : String → List String) (target : String) (maxD : Option Nat)
    (st : BfsSt) (current : String) (rest : List String)
    (h : st.queue = current :: rest) :
    bfsLoop trans out target maxD 0 st = none := by
  rw [bfsLoop, h]

theorem bfsLoop_succ (trans : List (String × TransitionRecord))
    (out : String → List String) (target : String) (maxD : Option Nat)
    (fuel2 : Nat) (st : BfsSt) (current : String) (rest : List String)
    (h : st.queue = current :: rest) :
    bfsLoop trans out target maxD (fuel2 + 1) st =
      if depthLimited maxD ((lookupKey st.depth current).getD 0) then
        bfsLoop trans out target maxD fuel2 { st with queue := rest }
      else
        match expandEdges trans target current
            ((lookupKey st.depth current).getD 0) (out current)
            { st with queue := rest } with
        | .inl prevMap => some (some prevMap)
        | .inr st2 => bfsLoop trans out target maxD fuel2 st2 := by
  rw [bfsLoop, h]

theorem bfsLoop_found (trans : List (String × TransitionRecord))
    (out : String → List String) (target source : String)
    (maxD : Option Nat) :
    ∀ fuel st prevMap, LoopInv trans out target source maxD st →
      bfsLoop trans out target maxD fuel st = some (some prevMap) →
      ∃ k, FoundSpec trans out maxD source target prevMap k := by
  intro fuel
  induction fuel with
  | zero =>
    intro st prevMap hl hres
    rcases hq : st.queue with _ | ⟨current, rest⟩
    · rw [bfsLoop_nil trans out target maxD 0 st hq] at hres
      exact absurd hres (by simp)
    · rw [bfsLoop_zero trans out target maxD st current rest hq] at hres
      exact absurd hres (by simp)
  | succ fuel2 ih =>
    intro st prevMap hl hres
    rcases hq : st.queue with _ | ⟨current, rest⟩
    · rw [bfsLoop_nil trans out target maxD (fuel2 + 1) st hq] at hres
      exact absurd hres (by simp)
    · rw [bfsLoop_succ trans out target maxD fuel2 st current rest hq]
        at hres
      by_cases hlim :
          depthLimited maxD ((lookupKey st.depth current).getD 0) = true
      · rw [if_pos hlim] at hres
        exact ih _ prevMap (loopInv_skip hl hq hlim) hres
      · rw [if_neg hlim] at hres
        have hlim2 : depthLimited maxD
            ((lookupKey st.depth current).getD 0) = false := by
          cases h2 : depthLimited maxD ((lookupKey st.depth current).getD 0)
          · rfl
          · exact absurd h2 hlim
        have hok := mOk_of_not_depthLimited maxD _ hlim2
        have hmid := MID_of_pop hl hq hok
        rcases hexp : expandEdges trans target current
            ((lookupKey st.depth current).getD 0) (out current)
            { st with queue := rest } with pm | st2
        · rw [hexp] at hres
          simp only [Option.some.injEq] at hres
          subst hres
          exact ⟨(lookupKey st.depth current).getD 0 + 1,
            (expandEdges_spec trans out target source current maxD
              ((lookupKey st.depth current).getD 0) (out current)
              { st with queue := rest } hmid).2 pm hexp⟩
        · rw [hexp] at hres
          have hl2 := loopInv_of_MID
            ((expandEdges_spec trans out target source current maxD
              ((lookupKey st.depth current).getD 0) (out current)
              { st with queue := rest } hmid).1 st2 hexp)
          exact ih st2 prevMap hl2 hres

/-! ## Shortest-path correctness and degenerate results (claims C2, C6) -/

/-- What a successful non-degenerate `shortest_path` run yields: the returned
records chain from `s` to `t` through the context's stored transitions, their
count is the BFS depth of `t`, that count respects the `max_depth` limit, and
no chain is shorter. -/
theorem shortest_path_found_spec (σ : GraphStore) (hσ : Reaches σ)
    (c s t : String) (maxD : Option Nat) (p : List TransitionRecord)
    (hsp : σ.shortest_path c s t maxD = some p) (hst : ¬ s = t) :
    ∃ k, IsChain (σ.ctxTransitions c) s p t ∧ p.length = k ∧ 1 ≤ k ∧
      withinDepth maxD k ∧
      ∀ q, IsChain (σ.ctxTransitions c) s q t → k ≤ q.length := by
  have hkeys : KeysInv σ := by
    obtain ⟨cfg, ops, rfl⟩ := hσ
    exact keysInv_applyOps _ _ (keysInv_mkStore cfg)
  have hsi : StoreInv σ := by
    obtain ⟨cfg, ops, rfl⟩ := hσ
    exact storeInv_applyOps _ _ (storeInv_mkStore cfg)
  simp only [GraphStore.shortest_path, if_neg hst] at hsp
  by_cases hemp : (σ.ctxTransitions c).isEmpty = true
  · rw [if_pos hemp] at hsp
    exact absurd hsp (by simp)
  · rw [if_neg hemp] at hsp
    rcases hbl : bfsLoop (σ.ctxTransitions c) (fun u => σ.getOut c u) t
        maxD ((σ.ctxTransitions c).length + 1)
        { queue := [s], visited := [s], prev := [(s, (none, none))],
          depth := [(s, 0)] } with _ | op
    · rw [hbl] at hsp
      exact absurd hsp (by simp)
    · cases op with
      | none =>
        rw [hbl] at hsp
        exact absurd hsp (by simp)
      | some prevMap =>
        rw [hbl] at hsp
        simp only [Option.some.injEq] at hsp
        obtain ⟨k, hfs⟩ := bfsLoop_found (σ.ctxTransitions c)
          (fun u => σ.getOut c u) t s maxD
          ((σ.ctxTransitions c).length + 1)
          { queue := [s], visited := [s], prev := [(s, (none, none))],
            depth := [(s, 0)] } prevMap
          (loopInv_init (σ.ctxTransitions c) (fun u => σ.getOut c u)
            t s maxD hst) hbl
        obtain ⟨dep, hwf, hdt, hpt, hk1, hklen, hwd, hmin⟩ := hfs
        have HK : ∀ e tr, lookupKey (σ.ctxTransitions c) e = some tr →
            tr.id = e := fun e tr h => hkeys c e tr h
        have HC : ∀ u e tr, e ∈ (fun u => σ.getOut c u) u →
            lookupKey (σ.ctxTransitions c) e = some tr →
            tr.source_state_id = u := by
          intro u e tr hmem hlk
          obtain ⟨tr2, h1, h2⟩ := ((hsi c u e).1).mp hmem
          have h3 : some tr2 = some tr := h1.symm.trans hlk
          injection h3 with h3
          rw [← h3]
          exact h2
        obtain ⟨hchain, hlen⟩ := reconstruct_ok (σ.ctxTransitions c)
          (fun u => σ.getOut c u) s prevMap dep HK HC hwf k t hdt hpt
          (prevMap.length + 1) (by omega)
        rw [hsp] at hchain hlen
        refine ⟨k, hchain, hlen, hk1, hwd, ?_⟩
        intro q hq
        have HW : ∀ u tr, lookupKey (σ.ctxTransitions c) tr.id = some tr →
            tr.source_state_id = u → tr.id ∈ (fun u => σ.getOut c u) u :=
          fun u tr h hsrc => ((hsi c u tr.id).1).mpr ⟨tr, h, hsrc⟩
        have hwalk := isChain_walk (σ.ctxTransitions c)
          (fun u => σ.getOut c u) HW q s t hq
        have hql := hmin (q.map TransitionRecord.id) hwalk
        rw [List.length_map] at hql
        exact hql

/-- C2: on every reachable store state, whenever
`shortest_path(c, s, t, max_depth)` returns a record sequence `p`, (b)/(c)
the records are stored in context `c` and chain from `s` to `t` (consecutive
target/source ids match and the endpoints are `s` and `t`, which `IsChain`
states), and (a) no chain of stored transitions from `s` to `t` in `c` has
fewer records than `p`. -/
theorem shortest_path_correct (σ : GraphStore) (c s t : String)
    (maxD : Option Nat) (p : List TransitionRecord) (hσ : Reaches σ)
    (hsp : σ.shortest_path c s t maxD = some p) :
    IsChain (σ.ctxTransitions c) s p t ∧
    ∀ q, IsChain (σ.ctxTransitions c) s q t → p.length ≤ q.length := by
  by_cases hst : s = t
  · subst hst
    have hp : p = [] := by
      rw [GraphStore.shortest_path, if_pos rfl] at hsp
      exact (Option.some.inj hsp).symm
    subst hp
    exact ⟨rfl, fun q hq => Nat.zero_le _⟩
  · obtain ⟨k, hch, hlen, hk1, hwd, hmin⟩ :=
      shortest_path_found_spec σ hσ c s t maxD p hsp hst
    refine ⟨hch, ?_⟩
    intro q hq
    rw [hlen]
    exact hmin q hq

/-- Scenario-D operation list: one context, states A/B/D, transitions
t1 : A→B, t2 : B→D and the shortcut t4 : A→D. -/
def dOps : List StoreOp :=
  [.ctxOp (mkContext "ctx1"), .stateOp (mkState "ctx1" "A"),
   .stateOp (mkState "ctx1" "B"), .stateOp (mkState "ctx1" "D"),
   .transOp (mkTransRecord "ctx1" "t1" "A" "B" 1) false,
   .transOp (mkTransRecord "ctx1" "t2" "B" "D" 1) false,
   .transOp (mkTransRecord "ctx1" "t4" "A" "D" 1) false]

/-- The store reached by applying the Scenario-D operations. -/
def scenarioDStore : GraphStore :=
  applyOps (mkStore GraphStoreConfig.default) dOps

theorem shortest_path_correct_witness :
    IsChain (scenarioDStore.ctxTransitions "ctx1") "A"
      [mkTransRecord "ctx1" "t4" "A" "D" 1] "D" ∧
    ∀ q, IsChain (scenarioDStore.ctxTransitions "ctx1") "A" q "D" →
      ([mkTransRecord "ctx1" "t4" "A" "D" 1] : List TransitionRecord).length
        ≤ q.length :=
  shortest_path_correct scenarioDStore "ctx1" "A" "D" none
    [mkTransRecord "ctx1" "t4" "A" "D" 1]
    ⟨GraphStoreConfig.default, dOps, rfl⟩ (by rfl)

/-- C6: degenerate `shortest_path` results, on every reachable store state:
equal endpoints return the empty sequence; with distinct endpoints an empty
transition map returns `NoPath` (`none`); with distinct endpoints the result
is `NoPath` whenever no chain of stored transitions leads from `s` to `t`
within the `max_depth` limit when one is set (so in particular when `t` is
reachable only beyond `max_depth`, or not at all); and the empty sequence is
returned only when the endpoints are equal. -/
theorem shortest_path_degenerate (σ : GraphStore) (c s t : String)
    (maxD : Option Nat) (hσ : Reaches σ) :
    σ.shortest_path c s s maxD = some [] ∧
    (s ≠ t → σ.ctxTransitions c = [] →
      σ.shortest_path c s t maxD = none) ∧
    (s ≠ t → (∀ q, IsChain (σ.ctxTransitions c) s q t →
        ¬ withinDepth maxD q.length) →
      σ.shortest_path c s t maxD = none) ∧
    (∀ p, σ.shortest_path c s t maxD = some p → p = [] → s = t) := by
  refine ⟨?_, ?_, ?_, ?_⟩
  · simp [GraphStore.shortest_path]
  · intro hst hemp
    simp [GraphStore.shortest_path, hst, hemp]
  · intro hst hnoch
    cases hres : σ.shortest_path c s t maxD with
    | none => rfl
    | some p =>
      obtain ⟨k, hch, hlen, hk1, hwd, hmin⟩ :=
        shortest_path_found_spec σ hσ c s t maxD p hres hst
      rw [← hlen] at hwd
      exact absurd hwd (hnoch p hch)
  · intro p hsp hpe
    by_contra hst
    obtain ⟨k, hch, hlen, hk1, hwd, hmin⟩ :=
      shortest_path_found_spec σ hσ c s t maxD p hsp hst
    rw [hpe] at hlen
    simp only [List.length_nil] at hlen
    omega

theorem shortest_path_degenerate_witness :
    scenarioDStore.shortest_path "ctx1" "A" "A" none = some [] ∧
    (("A" : String) ≠ "Z" → scenarioDStore.ctxTransitions "ctx1" = [] →
      scenarioDStore.shortest_path "ctx1" "A" "Z" none = none) ∧
    (("A" : String) ≠ "Z" →
      (∀ q, IsChain (scenarioDStore.ctxTransitions "ctx1") "A" q "Z" →
        ¬ withinDepth none q.length) →
      scenarioDStore.shortest_path "ctx1" "A" "Z" none = none) ∧
    (∀ p, scenarioDStore.shortest_path "ctx1" "A" "Z" none = some p →
      p = [] → "A" = "Z") :=
  shortest_path_degenerate scenarioDStore "ctx1" "A" "Z" none
    ⟨GraphStoreConfig.default, dOps, rfl⟩

/-- Scenario-D without the shortcut: D is reachable from A only via B. -/
def dOpsNoShortcut : List StoreOp :=
  [.ctxOp (mkContext "ctx1"), .stateOp (mkState "ctx1" "A"),
   .stateOp (mkState "ctx1" "B"), .stateOp (mkState "ctx1" "D"),
   .transOp (mkTransRecord "ctx1" "t1" "A" "B" 1) false,
   .transOp (mkTransRecord "ctx1" "t2" "B" "D" 1) false]

/-- With the only chain A→B→D of length 2 and `max_depth = 1`, the BFS
exhausts the states reachable within the limit and returns `NoPath`. -/
theorem shortest_path_depth_limit_example :
    (applyOps (mkStore GraphStoreConfig.default)
      dOpsNoShortcut).shortest_path "ctx1" "A" "D" (some 1) = none := by
  rfl

end Ariane

